import Mathlib

/-!
# Execution graph of the STM32F427 (Cortex-M4F) basic-block timer

A shallow embedding of `stm32F427BBTime.cpp`: the class `M4ExeGraph` (the three
edge passes it overrides, the unknown-instruction dump and `build`) and the
builder `BBTimerSTM32M4F` (`configure`, `setup`, `make`, `clean`).

The host engine (`ParExeGraph`, `ParExeInst`, `ParExeNode`, `ParExeStage`,
`ParExePipeline`) and the decoder (`arm::Info`, `stm32M4F`, `armV7_NReg`) are
not part of the source file.  What the source reads from them is kept as data:
an instruction record, a node record, node lists, and a `Decoder` that is passed
to every function that decodes.  The graph the host has built when a pass starts
(latencies, edges) is the input of the pass.
-/

namespace otawa.stm32

/-! ## Data model -/

/-- Program instruction (`otawa::Inst`): what the source reads of it. Two records are
the same instruction object when they agree on every field. -/
structure Inst where
  address : Nat
  isLoad : Bool
  isFloat : Bool
  deriving DecidableEq, Repr

/-- Timing record `m4f_time_t` returned by `stm32M4F`. The header declaring it is not in
the source file; `ex_cost` is read into a signed `ot::time`, so it is an integer here. -/
structure m4f_time_t where
  ex_cost : Int
  multi : Bool
  dep : Bool
  unknown : Bool
  deriving DecidableEq, Repr

/-- Decoder capability: `stm32M4F (info->decode inst)` and `armV7_NReg (info->decode inst)`.
Both are functions of the instruction; the register count is a `t::uint32`. -/
structure Decoder where
  stm32M4F : Inst → m4f_time_t
  armV7_NReg : Inst → Nat

/-- Stage categories of the host (`ParExeStage::pipeline_stage_category_t`). -/
inductive pipeline_stage_category_t where
  | FETCH | DECODE | EXECUTE | COMMIT | DELAY | FU
  deriving DecidableEq, Repr

/-- One entry of the node list of a `ParExeInst`, as `InstNodeIterator` visits it: the
identity of the node and `stage()->category()`. -/
structure InstNode where
  id : Nat
  category : pipeline_stage_category_t
  deriving DecidableEq, Repr

/-- Instruction of the sequence (`ParExeInst`): the program instruction it wraps, its node
list in creation order, and the three nodes the host keeps handles on. -/
structure ParExeInst where
  inst : Inst
  nodes : List InstNode
  fetchNode : Nat
  firstFUNode : Nat
  lastFUNode : Nat
  deriving DecidableEq, Repr

/-- Graph node (`ParExeNode`): its identity and the instruction it was created for
(`node->inst()`). -/
structure ParExeNode where
  id : Nat
  inst : ParExeInst
  deriving DecidableEq, Repr

/-- Edge kinds of the host (`ParExeEdge::edge_type_t`). -/
inductive edge_type_t where
  | SOLID | SLASHED
  deriving DecidableEq, Repr

/-- Edge (`ParExeEdge`), with the arguments of its constructor. -/
structure ParExeEdge where
  source : ParExeNode
  target : ParExeNode
  type : edge_type_t
  latency : Int
  name : String
  deriving DecidableEq, Repr

/-- Stage of a functional unit (`ParExeStage`): its name and the nodes added to it, in the
order `node(j)` enumerates them. -/
structure ParExeStage where
  name : String
  nodes : List ParExeNode
  deriving DecidableEq, Repr

/-- Functional unit (`ParExePipeline`): the source only reads `firstStage()`. -/
structure ParExePipeline where
  firstStage : ParExeStage
  deriving DecidableEq, Repr

/-- Stage of the processor pipeline: its name and its functional units (`numFus`, `fu(i)`). -/
structure PipelineStage where
  name : String
  fus : List ParExePipeline
  deriving DecidableEq, Repr

/-- Node handle of an instruction as a graph node: `inst->fetchNode()`, `inst->lastFUNode()`
and the nodes of `InstNodeIterator(inst)` all have `inst` as their `inst()`. -/
def ParExeInst.node (P : ParExeInst) (id : Nat) : ParExeNode := ⟨id, P⟩

/-! ## Timing descriptor lookup -/

/-- Source `getInstCycleTiming`: decode, read the timing record, free. -/
def getInstCycleTiming (d : Decoder) (inst : Inst) : m4f_time_t := d.stm32M4F inst

/-- Source `getInstNReg`: decode, read the register count, free. -/
def getInstNReg (d : Decoder) (inst : Inst) : Nat := d.armV7_NReg inst

/-! ## Pipeline order -/

/-- Value of `inst_cost` at line 97 of the source: `ex_cost`, incremented by the register
count inside the two nested tests. -/
def instCost (d : Decoder) (inst : Inst) : Int :=
  let inst_cycle_timing := getInstCycleTiming d inst
  let inst_cost := inst_cycle_timing.ex_cost
  if inst_cycle_timing.multi then
    if !inst.isFloat then inst_cost + (getInstNReg d inst : Int) else inst_cost
  else inst_cost

/-- Host `ParExeNode::setLatency` on the table of node latencies. -/
def setLatency (latency : Nat → Int) (node : Nat) (v : Int) : Nat → Int :=
  fun n => if n = node then v else latency n

/-- Source `addEdgesForPipelineOrder`, after the call of the host pass: `latency` is the
table of node latencies the host pass left; the loop visits the sequence in order. -/
def addEdgesForPipelineOrder (d : Decoder) : List ParExeInst → (Nat → Int) → (Nat → Int)
  | [], latency => latency
  | inst :: rest, latency =>
    let inst_cost := instCost d inst.inst
    if inst_cost > 1 then
      addEdgesForPipelineOrder d rest (setLatency latency inst.firstFUNode (inst_cost - 1))
    else
      addEdgesForPipelineOrder d rest latency

/-! ## Data dependencies -/

/-- The edge both branches of the data-dependency loop create:
`new ParExeEdge(prev_inst->lastFUNode(), inst->fetchNode(), SOLID, 1, "Data dep")`. -/
def dataDepEdge (prev_inst inst : ParExeInst) : ParExeEdge :=
  ⟨prev_inst.node prev_inst.lastFUNode, inst.node inst.fetchNode, edge_type_t.SOLID, 1, "Data dep"⟩

/-- Loop of source `addEdgesForDataDependencies` (lines 111-125) from a loop state
`prev_inst`, `prev_inst_dep`; `edges` is the edge list of the graph, new edges are
appended to it. -/
def dataDepLoop (d : Decoder) :
    Option ParExeInst → Bool → List ParExeInst → List ParExeEdge → List ParExeEdge
  | _, _, [], edges => edges
  | none, prev_inst_dep, inst :: rest, edges =>
    -- both tests on prev_inst fail: no edge, the flag keeps its value
    dataDepLoop d (some inst) prev_inst_dep rest edges
  | some prev_inst, prev_inst_dep, inst :: rest, edges =>
    let edges1 := if prev_inst_dep then edges ++ [dataDepEdge prev_inst inst] else edges
    let dep1 := if prev_inst_dep then false else prev_inst_dep
    if (getInstCycleTiming d inst.inst).dep then
      dataDepLoop d (some inst) true rest (edges1 ++ [dataDepEdge prev_inst inst])
    else
      dataDepLoop d (some inst) dep1 rest edges1

/-- Source `addEdgesForDataDependencies`, after the call of the host pass: `edges` is the
edge list the host pass left. -/
def addEdgesForDataDependencies (d : Decoder) (seq : List ParExeInst)
    (edges : List ParExeEdge) : List ParExeEdge :=
  dataDepLoop d none false seq edges

/-! ## Memory order -/

/-- Loop of lines 151-153: walks the node list of the instruction of the current load; every
node whose stage has category `FU` becomes `previous_load`, so the last one stays. -/
def lastFUNodeLoop (P : ParExeInst) : List InstNode → Option ParExeNode → Option ParExeNode
  | [], previous_load => previous_load
  | last_node :: rest, previous_load =>
    if last_node.category = pipeline_stage_category_t.FU then
      lastFUNodeLoop P rest (some (P.node last_node.id))
    else
      lastFUNodeLoop P rest previous_load

/-- The edge of line 147: `new ParExeEdge(previous_load, node, SOLID, 0, "memory order")`. -/
def memoryOrderEdge (previous_load node : ParExeNode) : ParExeEdge :=
  ⟨previous_load, node, edge_type_t.SOLID, 0, "memory order"⟩

/-- Loop of lines 139-155 over the node list of the first stage of one functional unit, from
a loop state `previous_load`. -/
def memoryOrderNodes :
    List ParExeNode → Option ParExeNode → List ParExeEdge → List ParExeEdge
  | [], _, edges => edges
  | node :: rest, previous_load, edges =>
    if node.inst.inst.isLoad then
      let edges1 :=
        match previous_load with
        | some pl =>
          if pl.inst.inst ≠ node.inst.inst then edges ++ [memoryOrderEdge pl node] else edges
        | none => edges
      memoryOrderNodes rest (lastFUNodeLoop node.inst node.inst.nodes previous_load) edges1
    else
      memoryOrderNodes rest previous_load edges

/-- Loop of lines 134-156 over the functional units: `previous_load` starts as null for
each of them. -/
def memoryOrderFus : List ParExePipeline → List ParExeEdge → List ParExeEdge
  | [], edges => edges
  | fu :: rest, edges => memoryOrderFus rest (memoryOrderNodes fu.firstStage.nodes none edges)

/-- Source `addEdgesForMemoryOrder`, after the call of the host pass: `stage` is
`_microprocessor->execStage()`, `edges` the edge list the host pass left. -/
def addEdgesForMemoryOrder (stage : PipelineStage) (edges : List ParExeEdge) :
    List ParExeEdge :=
  memoryOrderFus stage.fus edges

/-! ## Unknown-instruction log -/

/-- What is written to the log: a line of text, or the line `addr; inst` of the dump. -/
inductive LogLine where
  | text (s : String)
  | unknownInst (addr : Nat) (inst : Inst)
  deriving DecidableEq, Repr

/-- Log sink (`elm::io::FileOutput`): the path it was opened on and what was written to it
through this handle, in order. -/
structure FileOutput where
  path : String
  written : List LogLine
  deriving DecidableEq, Repr

/-- Loop of source `dumpUnknowInst` (lines 73-82) once `_out` is known to be non-null. The
address set is an `elm::Vector<Address>` behind a pointer that may be null; the result is
`none` when the loop dereferences a null `_unknown_inst_address`. -/
def dumpLoop (d : Decoder) :
    List ParExeInst → FileOutput → Option (List Nat) → Option (FileOutput × Option (List Nat))
  | [], out, unknown_inst_address => some (out, unknown_inst_address)
  | inst :: rest, out, unknown_inst_address =>
    if !(getInstCycleTiming d inst.inst).unknown then
      dumpLoop d rest out unknown_inst_address
    else
      let addr := inst.inst.address
      match unknown_inst_address with
      | none => none
      | some v =>
        if v.contains addr then
          dumpLoop d rest out (some v)
        else
          dumpLoop d rest
            ⟨out.path, out.written ++ [LogLine.unknownInst addr inst.inst]⟩ (some (v ++ [addr]))

/-- Source `dumpUnknowInst`: the state is the pair of objects `_out` and
`_unknown_inst_address` point to, shared with the builder. -/
def dumpUnknowInst (d : Decoder) (seq : List ParExeInst) (_out : Option FileOutput)
    (_unknown_inst_address : Option (List Nat)) :
    Option (Option FileOutput × Option (List Nat)) :=
  match _out with
  | none => some (none, _unknown_inst_address)
  | some out =>
    match dumpLoop d seq out _unknown_inst_address with
    | none => none
    | some r => some (some r.1, r.2)

/-- A run: the graphs of the blocks are built one after the other by `make`, each is handed
the builder's `log_stream` and `unknown_inst_address`, and `build` ends with
`dumpUnknowInst`. -/
def dumpRun (d : Decoder) :
    List (List ParExeInst) → Option FileOutput → Option (List Nat) →
      Option (Option FileOutput × Option (List Nat))
  | [], log_stream, unknown_inst_address => some (log_stream, unknown_inst_address)
  | seq :: blocks, log_stream, unknown_inst_address =>
    match dumpUnknowInst d seq log_stream unknown_inst_address with
    | none => none
    | some r => dumpRun d blocks r.1 r.2

/-- Addresses of the dump lines of a log, in the order they were written. -/
def loggedAddresses : List LogLine → List Nat
  | [] => []
  | LogLine.text _ :: rest => loggedAddresses rest
  | LogLine.unknownInst addr _ :: rest => addr :: loggedAddresses rest

/-! ## Graph construction -/

/-- Indices of the stage table (`pipeline_stage_t`, without the count `CNT`). -/
inductive pipeline_stage_t where
  | FE | DE | EXE | WR
  deriving DecidableEq, Repr

/-- Private fields of `M4ExeGraph` that `build` and `dumpUnknowInst` use. A null pointer
is `none`. -/
structure M4ExeGraph where
  stage : pipeline_stage_t → Option PipelineStage
  exec_f : Option ParExePipeline
  exec_m4 : Option ParExePipeline
  _out : Option FileOutput
  _unknown_inst_address : Option (List Nat)

/-- Constructor of `M4ExeGraph` (lines 46-63), the checks on the loader and the memory
having passed. The initialiser list sets `exec_f`, `exec_m4`, `_unknown_inst_address` and
`_out`; it gives `stage` no value, so the table holds whatever the memory of the new
object holds: `uninitialised`. -/
def M4ExeGraph.new (uninitialised : pipeline_stage_t → Option PipelineStage)
    (out : Option FileOutput) (unknown_inst_address : Option (List Nat)) : M4ExeGraph :=
  ⟨uninitialised, none, none, out, unknown_inst_address⟩

/-- Assignment `stage[i] = s`. -/
def setStage (stage : pipeline_stage_t → Option PipelineStage) (i : pipeline_stage_t)
    (s : PipelineStage) : pipeline_stage_t → Option PipelineStage :=
  fun j => if j = i then some s else stage j

/-- Test `name.startsWith(p)` of `elm::String`: `p` is an initial segment of `name`. -/
def startsWith (name p : String) : Bool := p.data.isPrefixOf name.data

/-- Calls `build` makes once the checks have passed (lines 191-198), in order. -/
inductive BuildStep where
  | createSequenceResources | createNodes | addEdgesForPipelineOrder | addEdgesForFetch
  | addEdgesForProgramOrder | addEdgesForMemoryOrder | addEdgesForDataDependencies
  | dumpUnknowInst
  deriving DecidableEq, Repr

/-- Loop of lines 168-177 over the functional units of a stage named `EXE`. A failed
`ASSERTP` ends the run: `Except.error` with the message. -/
def scanFus : List ParExePipeline → M4ExeGraph → Except String M4ExeGraph
  | [], g => Except.ok g
  | fu :: rest, g =>
    if startsWith fu.firstStage.name "EXEC_F" then
      scanFus rest ⟨g.stage, some fu, g.exec_m4, g._out, g._unknown_inst_address⟩
    else if startsWith fu.firstStage.name "EXEC_M4" then
      scanFus rest ⟨g.stage, g.exec_f, some fu, g._out, g._unknown_inst_address⟩
    else
      Except.error fu.firstStage.name

/-- Loop of lines 161-182 over the stages of the pipeline. -/
def scanStages : List PipelineStage → M4ExeGraph → Except String M4ExeGraph
  | [], g => Except.ok g
  | pipeline_stage :: rest, g =>
    if pipeline_stage.name = "Fetch" then
      scanStages rest ⟨setStage g.stage pipeline_stage_t.FE pipeline_stage, g.exec_f, g.exec_m4,
        g._out, g._unknown_inst_address⟩
    else if pipeline_stage.name = "Decode" then
      scanStages rest ⟨setStage g.stage pipeline_stage_t.DE pipeline_stage, g.exec_f, g.exec_m4,
        g._out, g._unknown_inst_address⟩
    else if pipeline_stage.name = "EXE" then
      match scanFus pipeline_stage.fus
          ⟨setStage g.stage pipeline_stage_t.EXE pipeline_stage, g.exec_f, g.exec_m4,
            g._out, g._unknown_inst_address⟩ with
      | Except.error msg => Except.error msg
      | Except.ok g1 => scanStages rest g1
    else if pipeline_stage.name = "Write" then
      scanStages rest ⟨setStage g.stage pipeline_stage_t.WR pipeline_stage, g.exec_f, g.exec_m4,
        g._out, g._unknown_inst_address⟩
    else
      scanStages rest g

/-- The six `ASSERTP` of lines 183-188, in order. -/
def checkStages (g : M4ExeGraph) : Except String Unit :=
  if (g.stage pipeline_stage_t.FE).isNone then Except.error "No 'Prefetch' stage found"
  else if (g.stage pipeline_stage_t.DE).isNone then Except.error "No 'Decode' stage found"
  else if (g.stage pipeline_stage_t.EXE).isNone then Except.error "No 'EXE' stage found"
  else if (g.stage pipeline_stage_t.WR).isNone then Except.error "No 'Write back' stage found"
  else if g.exec_f.isNone then Except.error "No FPU fu found"
  else if g.exec_m4.isNone then Except.error "No M4 fu found"
  else Except.ok ()

/-- Source `build`: the scan of the pipeline, the checks, then the construction calls. The
construction itself belongs to the host; the result records the graph fields and the
calls made, in order. An error is a failed assertion: nothing was constructed. -/
def build (pipeline : List PipelineStage) (g : M4ExeGraph) :
    Except String (M4ExeGraph × List BuildStep) :=
  match scanStages pipeline g with
  | Except.error msg => Except.error msg
  | Except.ok g1 =>
    match checkStages g1 with
    | Except.error msg => Except.error msg
    | Except.ok _ =>
      Except.ok (g1, [BuildStep.createSequenceResources, BuildStep.createNodes,
        BuildStep.addEdgesForPipelineOrder, BuildStep.addEdgesForFetch,
        BuildStep.addEdgesForProgramOrder, BuildStep.addEdgesForMemoryOrder,
        BuildStep.addEdgesForDataDependencies, BuildStep.dumpUnknowInst])

/-! ## Builder -/

/-- Exceptions the builder raises or lets through. -/
inductive Exception where
  | ProcessorException (msg : String)
  | Other (msg : String)
  deriving DecidableEq, Repr

/-- Private fields of `BBTimerSTM32M4F` (lines 277-280). -/
structure BBTimerSTM32M4F where
  log_stream : Option FileOutput
  write_log : Bool
  unknown_inst_address : Option (List Nat)
  deriving DecidableEq, Repr

/-- Field initialisers of lines 278-280: null, 0, null. -/
def BBTimerSTM32M4F.new : BBTimerSTM32M4F := ⟨none, false, none⟩

/-- What `setup` reads from its surroundings: the cache configuration the workspace
provides (null when there is none), the program name, whether the log file already exists,
and what the setup of the base class throws, if anything. -/
structure WorkSpace where
  cache_config : Option Unit
  program_name : String
  log_file_exists : Bool
  base_setup : Option Exception
  deriving DecidableEq, Repr

/-- Source `configure`: `write_log = WRITE_LOG(props)`. -/
def configure (props_write_log : Bool) (b : BBTimerSTM32M4F) : BBTimerSTM32M4F :=
  ⟨b.log_stream, props_write_log, b.unknown_inst_address⟩

/-- Header written to a new log file (lines 253-257). -/
def logHeader (program_name : String) : List LogLine :=
  [LogLine.text "########################################################",
   LogLine.text ("# Static analysis on " ++ program_name),
   LogLine.text "# Overestimated instructions",
   LogLine.text "# Address (hex); Instruction",
   LogLine.text "########################################################"]

/-- Source `setup`: the builder after the call, and the exception that left it, if any. -/
def setup (ws : WorkSpace) (b : BBTimerSTM32M4F) : BBTimerSTM32M4F × Option Exception :=
  match ws.base_setup with
  | some e => (b, some e)
  | none =>
    if ws.cache_config.isSome then
      (b, some (Exception.ProcessorException
        "Cache support is not implemented for the Cortex M4"))
    else if b.write_log then
      let log_file_path := ws.program_name ++ ".log"
      let write_header := if ws.log_file_exists then false else true
      let log_stream : FileOutput :=
        if write_header then ⟨log_file_path, logHeader ws.program_name⟩
        else ⟨log_file_path, [LogLine.text ""]⟩
      (⟨some log_stream, b.write_log, some []⟩, none)
    else
      (b, none)

/-- How a call of the builder ends: it returns a value, an `ASSERTP` fails, or it
dereferences a null pointer. -/
inductive Outcome (α : Type) where
  | done (a : α)
  | assertFailed (msg : String)
  | nullDereference
  deriving DecidableEq, Repr

/-- Value a call returned, if it returned. -/
def Outcome.toOption {α : Type} : Outcome α → Option α
  | Outcome.done a => some a
  | Outcome.assertFailed _ => none
  | Outcome.nullDereference => none

/-- Source `make`: a new graph is constructed on the builder's `log_stream` and
`unknown_inst_address` and built on the sequence; `build` ends with `dumpUnknowInst`,
which works on the objects the two pointers of the graph share with the builder. The
result is the graph and the builder with these objects as the dump left them. -/
def make (d : Decoder) (pipeline : List PipelineStage)
    (uninitialised : pipeline_stage_t → Option PipelineStage) (seq : List ParExeInst)
    (b : BBTimerSTM32M4F) : Outcome (M4ExeGraph × BBTimerSTM32M4F) :=
  let graph := M4ExeGraph.new uninitialised b.log_stream b.unknown_inst_address
  match build pipeline graph with
  | Except.error msg => Outcome.assertFailed msg
  | Except.ok (g1, _) =>
    match dumpUnknowInst d seq g1._out g1._unknown_inst_address with
    | none => Outcome.nullDereference
    | some r =>
      Outcome.done (⟨g1.stage, g1.exec_f, g1.exec_m4, r.1, r.2⟩, ⟨r.1, b.write_log, r.2⟩)

/-- Source `clean`: `log_stream->flush()` with no test of the pointer, then `delete graph`.
Buffering is not part of the model of the sink, so a flush of an existing sink leaves the
builder as it is. -/
def clean (_graph : M4ExeGraph) (b : BBTimerSTM32M4F) : Outcome BBTimerSTM32M4F :=
  match b.log_stream with
  | none => Outcome.nullDereference
  | some _ => Outcome.done b

/-- Calls that reach the fields of the builder. -/
inductive BuilderCall where
  | configure (write_log : Bool)
  | setup (ws : WorkSpace)
  | make (d : Decoder) (pipeline : List PipelineStage)
      (uninitialised : pipeline_stage_t → Option PipelineStage) (seq : List ParExeInst)

/-- Builder after a call. A `setup` that throws and a `make` that does not return leave the
fields as they were. -/
def runCall (b : BBTimerSTM32M4F) : BuilderCall → BBTimerSTM32M4F
  | BuilderCall.configure write_log => configure write_log b
  | BuilderCall.setup ws => (setup ws b).1
  | BuilderCall.make d pipeline uninitialised seq =>
    match make d pipeline uninitialised seq b with
    | Outcome.done r => r.2
    | Outcome.assertFailed _ => b
    | Outcome.nullDereference => b

/-- Builder reached from a newly constructed one by a series of calls. -/
def reach (calls : List BuilderCall) : BBTimerSTM32M4F :=
  calls.foldl runCall BBTimerSTM32M4F.new

/-! ## Concrete graphs used to evaluate the definitions -/

/-- Instruction at position `k` of a sequence with the nodes the host creates for it on a
pipeline Fetch, Decode, EXE (one stage in its functional unit), Write: node `4k` is the
fetch node, node `4k+2` the only functional-unit node. -/
def hostInst (k : Nat) (inst : Inst) : ParExeInst :=
  ⟨inst,
   [⟨4 * k, pipeline_stage_category_t.FETCH⟩, ⟨4 * k + 1, pipeline_stage_category_t.DECODE⟩,
    ⟨4 * k + 2, pipeline_stage_category_t.FU⟩, ⟨4 * k + 3, pipeline_stage_category_t.COMMIT⟩],
   4 * k, 4 * k + 2, 4 * k + 2⟩

/-- Functional-unit node of `hostInst k inst`, as it appears in the node list of the first
stage of its functional unit. -/
def hostFUNode (k : Nat) (inst : Inst) : ParExeNode := ⟨4 * k + 2, hostInst k inst⟩

/-- Decoder of the examples: the instruction at address 4 has `dep`, the one at address 12
is a multi-register operation of base cost 1 on 3 registers, the one at address 16 is not
classified; every other instruction costs one cycle. -/
def sampleDecoder : Decoder :=
  ⟨fun i => ⟨1, i.address = 12, i.address = 4, i.address = 16⟩,
   fun i => if i.address = 12 then 3 else 0⟩

/-- Integer load at address `a`. -/
def ldr (a : Nat) : Inst := ⟨a, true, false⟩

/-- Integer instruction at address `a` that is not a load. -/
def alu (a : Nat) : Inst := ⟨a, false, false⟩

/-- Execute stage of the examples: a float unit whose first stage holds no node and an
integer unit whose first stage holds `nodes`. -/
def sampleExecStage (nodes : List ParExeNode) : PipelineStage :=
  ⟨"EXE", [⟨⟨"EXEC_F", []⟩⟩, ⟨⟨"EXEC_M4", nodes⟩⟩]⟩

/-- Instruction `P` has a node in the first stage of the functional unit `fu`. -/
def placedIn (P : ParExeInst) (fu : ParExePipeline) : Prop :=
  ∃ n ∈ fu.firstStage.nodes, n.inst = P

instance (P : ParExeInst) (fu : ParExePipeline) : Decidable (placedIn P fu) := by
  unfold placedIn
  infer_instance

/-- Float load at address `a`. -/
def vldr (a : Nat) : Inst := ⟨a, true, true⟩

/-- Execute stage of the block `LDR; VLDR; LDR`: the float load has its node in the float
unit, the two integer loads have theirs in the integer unit. -/
def sampleTwoUnits : PipelineStage :=
  ⟨"EXE", [⟨⟨"EXEC_F", [hostFUNode 1 (vldr 4)]⟩⟩,
    ⟨⟨"EXEC_M4", [hostFUNode 0 (ldr 0), hostFUNode 2 (ldr 8)]⟩⟩]⟩

/-- The block `LDR; VLDR; LDR` as a sequence. -/
def sampleTwoUnitsSeq : List ParExeInst :=
  [hostInst 0 (ldr 0), hostInst 1 (vldr 4), hostInst 2 (ldr 8)]

/-- Functional unit of the examples: only the name of its first stage matters to `build`. -/
def sampleUnit (name : String) : ParExePipeline := ⟨⟨name, []⟩⟩

/-- Pipeline with two float units and one integer unit under `EXE`. -/
def pipelineTwoFloat : List PipelineStage :=
  [⟨"Fetch", []⟩, ⟨"Decode", []⟩,
   ⟨"EXE", [sampleUnit "EXEC_F1", sampleUnit "EXEC_F2", sampleUnit "EXEC_M4"]⟩, ⟨"Write", []⟩]

/-- Pipeline without a stage named `Write`. -/
def pipelineNoWrite : List PipelineStage :=
  [⟨"Fetch", []⟩, ⟨"Decode", []⟩, ⟨"EXE", [sampleUnit "EXEC_F", sampleUnit "EXEC_M4"]⟩]

/-- Stage table of a new graph whose memory holds a stale non-null pointer in `stage[WR]`
(for instance that of a graph built and deleted before) and null elsewhere. -/
def staleStageTable : pipeline_stage_t → Option PipelineStage :=
  fun i => if i = pipeline_stage_t.WR then some ⟨"Write", []⟩ else none

/-- Name under which the scan of `build` stores a stage at an index of the stage table. -/
def stageName : pipeline_stage_t → String
  | pipeline_stage_t.FE => "Fetch"
  | pipeline_stage_t.DE => "Decode"
  | pipeline_stage_t.EXE => "EXE"
  | pipeline_stage_t.WR => "Write"

/-- Pipeline of the target: Fetch, Decode, EXE with a float and an integer unit, Write. -/
def pipelineM4F : List PipelineStage :=
  [⟨"Fetch", []⟩, ⟨"Decode", []⟩, ⟨"EXE", [sampleUnit "EXEC_F", sampleUnit "EXEC_M4"]⟩, ⟨"Write", []⟩]

/-- Decoder of the doubled-edge example: the instructions at addresses 4 and 8 have `dep`,
every instruction costs one cycle and is classified. -/
def twoDepDecoder : Decoder :=
  ⟨fun i => ⟨1, false, i.address = 4 ∨ i.address = 8, false⟩, fun _ => 0⟩

/-! ## Expected results, in the words of the specification -/

/-- Edges the data-dependency pass is to add for position `k` of the sequence, in the words
of the specification: none for `k = 0`; for `1 ≤ k < n`, `[dep(i_k)] + [k ≥ 2 and
dep(i_(k-1))]` copies of the edge from the last functional-unit node of `i_(k-1)` to the
fetch node of `i_k`. -/
def dataDepCopies (d : Decoder) (seq : List ParExeInst) (k : Nat) : List ParExeEdge :=
  match k with
  | 0 => []
  | j + 1 =>
    match seq[j]?, seq[j + 1]? with
    | some p, some i =>
      List.replicate
        ((if (getInstCycleTiming d i.inst).dep = true then 1 else 0) +
          (if 2 ≤ j + 1 ∧ (getInstCycleTiming d p.inst).dep = true then 1 else 0))
        (dataDepEdge p i)
    | _, _ => []

/-- Edges the data-dependency pass is to add for a sequence, in the words of the
specification: those of the positions `0 .. n-1`, in order. -/
def dataDepExpected (d : Decoder) (seq : List ParExeInst) : List ParExeEdge :=
  (List.range seq.length).flatMap (dataDepCopies d seq)

/-- Last functional-unit-category node of an instruction, in the words of the specification:
the last entry of its node list whose stage has category `FU`, if there is one. -/
def lastFUCategoryNode (P : ParExeInst) : Option ParExeNode :=
  ((P.nodes.filter (fun r => r.category = pipeline_stage_category_t.FU)).getLast?).map
    (fun r => P.node r.id)

/-- Pairs of consecutive load nodes of a node list, in the words of the specification: two
load nodes of the list with no other load node between them, in list order. -/
def consecutiveLoadPairs (l : List ParExeNode) : List (ParExeNode × ParExeNode) :=
  (l.filter (fun n => n.inst.inst.isLoad)).zip (l.filter (fun n => n.inst.inst.isLoad)).tail

/-- Edge the memory-order pass is to add for a pair of consecutive load nodes, in the words
of the specification: one solid edge of latency 0 from the last functional-unit-category
node of the instruction of the earlier load to the later load node when the underlying
instructions differ, none when they are the same instruction. -/
def memoryOrderPairEdge (ab : ParExeNode × ParExeNode) : List ParExeEdge :=
  if ab.1.inst.inst ≠ ab.2.inst.inst then
    match lastFUCategoryNode ab.1.inst with
    | some n => [⟨n, ab.2, edge_type_t.SOLID, 0, "memory order"⟩]
    | none => []
  else []

/-- Edges the memory-order pass is to add for the node list of the first stage of one
functional unit, in the words of the specification. -/
def memoryOrderExpected (l : List ParExeNode) : List ParExeEdge :=
  (consecutiveLoadPairs l).flatMap memoryOrderPairEdge

/-- Execute stage of a sequence `LDR; ADD; LDR; LDR` on the integer unit in which the last
two entries wrap the same instruction (the load at address 8, met twice). -/
def sampleRepeatedLoad : PipelineStage :=
  sampleExecStage
    [hostFUNode 0 (ldr 0), hostFUNode 1 (alu 4), hostFUNode 2 (ldr 8), hostFUNode 3 (ldr 8)]

/-- Workspace of the builder examples: no cache configuration, program `prog`, no log file
yet, the setup of the base class returns. -/
def sampleWorkSpace : WorkSpace := ⟨none, "prog", false, none⟩

/-- Functional units `build` scans, in scan order: those of the stages named `EXE`, stage
after stage. -/
def exeUnits (pipeline : List PipelineStage) : List ParExePipeline :=
  (pipeline.filter (fun s => s.name = "EXE")).flatMap (fun s => s.fus)

/-- Float units of a list: the first stage name starts with `EXEC_F`. -/
def floatUnits (fus : List ParExePipeline) : List ParExePipeline :=
  fus.filter (fun fu => startsWith fu.firstStage.name "EXEC_F")

/-- Integer units of a list: the first stage name starts with `EXEC_M4`. -/
def integerUnits (fus : List ParExePipeline) : List ParExePipeline :=
  fus.filter (fun fu => startsWith fu.firstStage.name "EXEC_M4")

/-- Pipeline with one float unit and two integer units under `EXE`. -/
def pipelineTwoInteger : List PipelineStage :=
  [⟨"Fetch", []⟩, ⟨"Decode", []⟩,
   ⟨"EXE", [sampleUnit "EXEC_M4_A", sampleUnit "EXEC_F", sampleUnit "EXEC_M4_B"]⟩,
   ⟨"Write", []⟩]

/-- Pipeline with two stages named `EXE`, the float unit under the first and the integer
unit under the second. -/
def pipelineSplitExe : List PipelineStage :=
  [⟨"Fetch", []⟩, ⟨"Decode", []⟩, ⟨"EXE", [sampleUnit "EXEC_F"]⟩,
   ⟨"EXE", [sampleUnit "EXEC_M4"]⟩, ⟨"Write", []⟩]

/-! ## Theorems -/

/-! ### Pipeline order -/

theorem instCost_eq (d : Decoder) (i : Inst) :
    instCost d i = (getInstCycleTiming d i).ex_cost +
      (if (getInstCycleTiming d i).multi = true ∧ i.isFloat = false
        then (getInstNReg d i : Int) else 0) := by
  simp only [instCost]
  cases h1 : (getInstCycleTiming d i).multi <;> cases h2 : i.isFloat <;> simp

theorem pipelineOrder_other (d : Decoder) (seq : List ParExeInst) (latency : Nat → Int)
    (n : Nat) (hn : n ∉ seq.map ParExeInst.firstFUNode) :
    addEdgesForPipelineOrder d seq latency n = latency n := by
  induction seq generalizing latency with
  | nil => rfl
  | cons Q rest ih =>
    simp only [List.map_cons, List.mem_cons, not_or] at hn
    unfold addEdgesForPipelineOrder
    simp only
    split
    · rw [ih _ hn.2]; simp [setLatency, hn.1]
    · exact ih _ hn.2

theorem pipelineOrder_at (d : Decoder) (seq : List ParExeInst) (latency : Nat → Int)
    (P : ParExeInst) (hP : P ∈ seq) (hnodes : (seq.map ParExeInst.firstFUNode).Nodup) :
    addEdgesForPipelineOrder d seq latency P.firstFUNode =
      if 1 < instCost d P.inst then instCost d P.inst - 1 else latency P.firstFUNode := by
  induction seq generalizing latency with
  | nil => simp at hP
  | cons Q rest ih =>
    simp only [List.map_cons, List.nodup_cons] at hnodes
    rcases List.mem_cons.mp hP with h | h
    · subst h
      unfold addEdgesForPipelineOrder
      simp only
      split
      · rw [pipelineOrder_other d rest _ _ hnodes.1]; simp [setLatency, *]
      · rw [pipelineOrder_other d rest _ _ hnodes.1]
    · have hne : P.firstFUNode ≠ Q.firstFUNode := by
        intro heq
        exact hnodes.1 (heq ▸ List.mem_map_of_mem _ h)
      unfold addEdgesForPipelineOrder
      simp only
      split
      · rw [ih _ h hnodes.2]; simp [setLatency, hne]
      · exact ih _ h hnodes.2

/-- C1: for every sequence whose instructions have their own first functional-unit nodes and
every instruction `P` of it, with `c = ex_cost + (register count if multi and not float,
else 0)`: if `c > 1` the latency of the first functional-unit node of `P` after
`addEdgesForPipelineOrder` is `c - 1`, and if `c ≤ 1` it is the latency the host pass
left. -/
theorem addEdgesForPipelineOrder_latency (d : Decoder) (seq : List ParExeInst)
    (latency : Nat → Int) (P : ParExeInst) (c : Int)
    (hP : P ∈ seq) (hnodes : (seq.map ParExeInst.firstFUNode).Nodup)
    (hc : c = (getInstCycleTiming d P.inst).ex_cost +
      (if (getInstCycleTiming d P.inst).multi = true ∧ P.inst.isFloat = false
        then (getInstNReg d P.inst : Int) else 0)) :
    (1 < c → addEdgesForPipelineOrder d seq latency P.firstFUNode = c - 1) ∧
    (c ≤ 1 → addEdgesForPipelineOrder d seq latency P.firstFUNode = latency P.firstFUNode) := by
  rw [← instCost_eq] at hc
  subst hc
  rw [pipelineOrder_at d seq latency P hP hnodes]
  constructor
  · intro h; simp [h]
  · intro h; simp [not_lt.mpr h]

/-- C1 at a two-instruction sequence: a multi-register operation on 3 registers (cost 4)
followed by a one-cycle instruction, all host latencies 0. -/
theorem addEdgesForPipelineOrder_latency_witness :
    hostInst 0 (alu 12) ∈ [hostInst 0 (alu 12), hostInst 1 (alu 8)] ∧
    ([hostInst 0 (alu 12), hostInst 1 (alu 8)].map ParExeInst.firstFUNode).Nodup ∧
    addEdgesForPipelineOrder sampleDecoder [hostInst 0 (alu 12), hostInst 1 (alu 8)]
      (fun _ => 0) (hostInst 0 (alu 12)).firstFUNode = 4 - 1 :=
  ⟨by decide, by decide,
   (addEdgesForPipelineOrder_latency sampleDecoder [hostInst 0 (alu 12), hostInst 1 (alu 8)]
     (fun _ => 0) (hostInst 0 (alu 12)) 4 (by decide) (by decide) (by decide)).1 (by decide)⟩

/-! ### Data dependencies -/

theorem dataDepLoop_none (d : Decoder) (f : Bool) (i : ParExeInst) (rest : List ParExeInst)
    (es : List ParExeEdge) :
    dataDepLoop d none f (i :: rest) es = dataDepLoop d (some i) f rest es := by
  simp [dataDepLoop]

theorem dataDepLoop_some (d : Decoder) (p : ParExeInst) (f : Bool) (i : ParExeInst)
    (rest : List ParExeInst) (es : List ParExeEdge) :
    dataDepLoop d (some p) f (i :: rest) es =
      dataDepLoop d (some i) (getInstCycleTiming d i.inst).dep rest
        (es ++ ((if f = true then [dataDepEdge p i] else []) ++
          (if (getInstCycleTiming d i.inst).dep = true then [dataDepEdge p i] else []))) := by
  cases f <;> cases h : (getInstCycleTiming d i.inst).dep <;> simp [dataDepLoop, h]

theorem mem_dataDepLoop (d : Decoder) (l : List ParExeInst) (p : ParExeInst) (f : Bool)
    (es : List ParExeEdge) (e : ParExeEdge) :
    e ∈ dataDepLoop d (some p) f l es ↔
      e ∈ es ∨ ∃ k P Q, (p :: l)[k]? = some P ∧ (p :: l)[k + 1]? = some Q ∧
        e = dataDepEdge P Q ∧
        ((getInstCycleTiming d Q.inst).dep = true ∨
          (if k = 0 then f = true else (getInstCycleTiming d P.inst).dep = true)) := by
  induction l generalizing p f es with
  | nil => simp [dataDepLoop]
  | cons i rest ih =>
    rw [dataDepLoop_some, ih]
    constructor
    · rintro (h | ⟨k, P, Q, hP, hQ, he, hc⟩)
      · rcases List.mem_append.mp h with h | h
        · exact Or.inl h
        · refine Or.inr ⟨0, p, i, by simp, by simp, ?_, ?_⟩
          · rcases List.mem_append.mp h with h | h <;> split at h <;> simp_all
          · rcases List.mem_append.mp h with h | h <;> split at h <;> simp_all
      · refine Or.inr ⟨k + 1, P, Q, by simpa using hP, by simpa using hQ, he, ?_⟩
        rcases hc with hc | hc
        · exact Or.inl hc
        · right
          simp only [Nat.add_one_ne_zero, if_false]
          by_cases hk : k = 0
          · subst hk
            simp at hP hc
            rw [← hP]; exact hc
          · simpa [hk] using hc
    · rintro (h | ⟨k, P, Q, hP, hQ, he, hc⟩)
      · exact Or.inl (List.mem_append.mpr (Or.inl h))
      · cases k with
        | zero =>
          simp at hP hQ
          subst hP hQ
          left
          rcases hc with hc | hc
          · simp [he, hc]
          · simp at hc; simp [he, hc]
        | succ k =>
          right
          refine ⟨k, P, Q, by simpa using hP, by simpa using hQ, he, ?_⟩
          rcases hc with hc | hc
          · exact Or.inl hc
          · right
            simp only [Nat.add_one_ne_zero, if_false] at hc
            by_cases hk : k = 0
            · subst hk
              simp at hP
              simp [hP, hc]
            · simpa [hk] using hc

theorem mem_addEdgesForDataDependencies (d : Decoder) (seq : List ParExeInst)
    (es : List ParExeEdge) (e : ParExeEdge) :
    e ∈ addEdgesForDataDependencies d seq es ↔
      e ∈ es ∨ ∃ k P Q, seq[k]? = some P ∧ seq[k + 1]? = some Q ∧
        e = dataDepEdge P Q ∧
        ((getInstCycleTiming d Q.inst).dep = true ∨
          (0 < k ∧ (getInstCycleTiming d P.inst).dep = true)) := by
  unfold addEdgesForDataDependencies
  cases seq with
  | nil => simp [dataDepLoop]
  | cons i rest =>
    rw [dataDepLoop_none, mem_dataDepLoop]
    constructor
    · rintro (h | ⟨k, P, Q, hP, hQ, he, hc⟩)
      · exact Or.inl h
      · refine Or.inr ⟨k, P, Q, hP, hQ, he, ?_⟩
        rcases hc with hc | hc
        · exact Or.inl hc
        · by_cases hk : k = 0
          · simp [hk] at hc
          · right; exact ⟨Nat.pos_of_ne_zero hk, by simpa [hk] using hc⟩
    · rintro (h | ⟨k, P, Q, hP, hQ, he, hc⟩)
      · exact Or.inl h
      · refine Or.inr ⟨k, P, Q, hP, hQ, he, ?_⟩
        rcases hc with hc | ⟨hk, hc⟩
        · exact Or.inl hc
        · right; simp [Nat.pos_iff_ne_zero.mp hk, hc]

theorem dataDepLoop_append (d : Decoder) (l : List ParExeInst) (p : Option ParExeInst)
    (f : Bool) (es : List ParExeEdge) :
    dataDepLoop d p f l es = es ++ dataDepLoop d p f l [] := by
  induction l generalizing p f es with
  | nil => simp [dataDepLoop]
  | cons i rest ih =>
    cases p with
    | none => rw [dataDepLoop_none, dataDepLoop_none, ih]
    | some p =>
      rw [dataDepLoop_some, dataDepLoop_some, ih, ih (some i) _ ([] ++ _)]
      simp

theorem addEdgesForDataDependencies_append (d : Decoder) (seq : List ParExeInst)
    (es : List ParExeEdge) :
    addEdgesForDataDependencies d seq es = es ++ addEdgesForDataDependencies d seq [] :=
  dataDepLoop_append d seq none false es

/-- C2: evaluation at the failing input. The first instruction of the sequence has `dep`
set, the instruction that follows it has not, and the pass adds no edge at all: the edge
from the last functional-unit node of the first instruction to the fetch node of the
second is missing. -/
theorem addEdgesForDataDependencies_first_dep :
    (getInstCycleTiming sampleDecoder (hostInst 0 (alu 4)).inst).dep = true ∧
    (getInstCycleTiming sampleDecoder (hostInst 1 (alu 8)).inst).dep = false ∧
    addEdgesForDataDependencies sampleDecoder [hostInst 0 (alu 4), hostInst 1 (alu 8)] [] = [] ∧
    dataDepEdge (hostInst 0 (alu 4)) (hostInst 1 (alu 8)) ∉
      addEdgesForDataDependencies sampleDecoder [hostInst 0 (alu 4), hostInst 1 (alu 8)] [] := by
  decide

/-- C9 as stated fails: in the sequence X, A, B, C where only A has `dep`, the pass adds the
edges X to A and A to B and nothing else, so there is no edge from the last
functional-unit node of B to the fetch node of C. -/
theorem addEdgesForDataDependencies_no_second_edge :
    (getInstCycleTiming sampleDecoder (hostInst 1 (alu 4)).inst).dep = true ∧
    addEdgesForDataDependencies sampleDecoder
      [hostInst 0 (alu 0), hostInst 1 (alu 4), hostInst 2 (alu 8), hostInst 3 (alu 20)] [] =
      [dataDepEdge (hostInst 0 (alu 0)) (hostInst 1 (alu 4)),
       dataDepEdge (hostInst 1 (alu 4)) (hostInst 2 (alu 8))] ∧
    ¬ (dataDepEdge (hostInst 1 (alu 4)) (hostInst 2 (alu 8)) ∈
        addEdgesForDataDependencies sampleDecoder
          [hostInst 0 (alu 0), hostInst 1 (alu 4), hostInst 2 (alu 8), hostInst 3 (alu 20)] [] ∧
       dataDepEdge (hostInst 2 (alu 8)) (hostInst 3 (alu 20)) ∈
        addEdgesForDataDependencies sampleDecoder
          [hostInst 0 (alu 0), hostInst 1 (alu 4), hostInst 2 (alu 8), hostInst 3 (alu 20)] []) := by
  decide

/-- C9, amended: for three consecutive instructions A, B, C of a sequence, A with `dep` set
and not the first instruction, the pass adds the solid latency-1 edge from the last
functional-unit node of A to the fetch node of B, and it adds the solid latency-1 edge
from the last functional-unit node of B to the fetch node of C exactly when B or C has
`dep` set. -/
theorem addEdgesForDataDependencies_three (d : Decoder) (seq : List ParExeInst) (k : Nat)
    (A B C : ParExeInst) (hk : 0 < k) (hA : seq[k]? = some A) (hB : seq[k + 1]? = some B)
    (hC : seq[k + 2]? = some C) (hdep : (getInstCycleTiming d A.inst).dep = true) :
    (∀ es, dataDepEdge A B ∈ addEdgesForDataDependencies d seq es) ∧
    (dataDepEdge A B).type = edge_type_t.SOLID ∧ (dataDepEdge A B).latency = 1 ∧
    (dataDepEdge B C).type = edge_type_t.SOLID ∧ (dataDepEdge B C).latency = 1 ∧
    (dataDepEdge B C ∈ addEdgesForDataDependencies d seq [] ↔
      ((getInstCycleTiming d B.inst).dep = true ∨ (getInstCycleTiming d C.inst).dep = true)) := by
  refine ⟨fun es => ?_, rfl, rfl, rfl, rfl, ?_⟩
  · exact (mem_addEdgesForDataDependencies d seq es _).mpr
      (Or.inr ⟨k, A, B, hA, hB, rfl, Or.inr ⟨hk, hdep⟩⟩)
  · rw [mem_addEdgesForDataDependencies]
    constructor
    · rintro (h | ⟨j, P, Q, _, _, he, hc⟩)
      · simp at h
      · have hPQ : B = P ∧ C = Q := by
          simp only [dataDepEdge, ParExeInst.node, ParExeEdge.mk.injEq, ParExeNode.mk.injEq] at he
          exact ⟨he.1.2, he.2.1.2⟩
        obtain ⟨rfl, rfl⟩ := hPQ
        rcases hc with hc | ⟨_, hc⟩
        · exact Or.inr hc
        · exact Or.inl hc
    · rintro (h | h)
      · exact Or.inr ⟨k + 1, B, C, hB, hC, rfl, Or.inr ⟨Nat.succ_pos k, h⟩⟩
      · exact Or.inr ⟨k + 1, B, C, hB, hC, rfl, Or.inl h⟩

/-- C9 amended, at the sequence X, A, B, C where A and C have `dep` set. -/
theorem addEdgesForDataDependencies_three_witness :
    0 < 1 ∧
    [hostInst 0 (alu 0), hostInst 1 (alu 4), hostInst 2 (alu 8), hostInst 3 (alu 4)][1]? =
      some (hostInst 1 (alu 4)) ∧
    (getInstCycleTiming sampleDecoder (hostInst 1 (alu 4)).inst).dep = true ∧
    (dataDepEdge (hostInst 2 (alu 8)) (hostInst 3 (alu 4)) ∈
      addEdgesForDataDependencies sampleDecoder
        [hostInst 0 (alu 0), hostInst 1 (alu 4), hostInst 2 (alu 8), hostInst 3 (alu 4)] [] ↔
      ((getInstCycleTiming sampleDecoder (hostInst 2 (alu 8)).inst).dep = true ∨
        (getInstCycleTiming sampleDecoder (hostInst 3 (alu 4)).inst).dep = true)) :=
  ⟨by decide, by decide, by decide,
   (addEdgesForDataDependencies_three sampleDecoder
     [hostInst 0 (alu 0), hostInst 1 (alu 4), hostInst 2 (alu 8), hostInst 3 (alu 4)] 1
     (hostInst 1 (alu 4)) (hostInst 2 (alu 8)) (hostInst 3 (alu 4))
     (by decide) (by decide) (by decide) (by decide) (by decide)).2.2.2.2.2⟩

/-! ### Memory order -/

theorem lastFUNodeLoop_cases (P : ParExeInst) (ns : List InstNode) (prev : Option ParExeNode) :
    lastFUNodeLoop P ns prev = prev ∨
      ∃ r ∈ ns, r.category = pipeline_stage_category_t.FU ∧
        lastFUNodeLoop P ns prev = some (P.node r.id) := by
  induction ns generalizing prev with
  | nil => exact Or.inl rfl
  | cons r rest ih =>
    unfold lastFUNodeLoop
    split
    · rename_i hr
      rcases ih (some (P.node r.id)) with h | ⟨r2, hr2, hc, h⟩
      · exact Or.inr ⟨r, List.mem_cons_self _ _, hr, h⟩
      · exact Or.inr ⟨r2, List.mem_cons_of_mem _ hr2, hc, h⟩
    · rcases ih prev with h | ⟨r2, hr2, hc, h⟩
      · exact Or.inl h
      · exact Or.inr ⟨r2, List.mem_cons_of_mem _ hr2, hc, h⟩

theorem lastFUNodeLoop_some (P : ParExeInst) (ns : List InstNode) (n : ParExeNode)
    (h : lastFUNodeLoop P ns none = some n) (prev : Option ParExeNode) :
    lastFUNodeLoop P ns prev = some n := by
  induction ns generalizing prev with
  | nil => simp [lastFUNodeLoop] at h
  | cons r rest ih =>
    unfold lastFUNodeLoop at h ⊢
    split
    · rename_i hr; simpa [hr] using h
    · rename_i hr; rw [if_neg hr] at h; exact ih h prev

theorem memoryOrderNodes_append (l : List ParExeNode) (prev : Option ParExeNode)
    (es : List ParExeEdge) :
    memoryOrderNodes l prev es = es ++ memoryOrderNodes l prev [] := by
  induction l generalizing prev es with
  | nil => simp [memoryOrderNodes]
  | cons node rest ih =>
    unfold memoryOrderNodes
    split
    · rw [ih]
      conv_rhs => rw [ih]
      cases prev with
      | none => simp
      | some pl => by_cases h : pl.inst.inst = node.inst.inst <;> simp [h]
    · exact ih _ _

theorem memoryOrderFus_append (fus : List ParExePipeline) (es : List ParExeEdge) :
    memoryOrderFus fus es = es ++ memoryOrderFus fus [] := by
  induction fus generalizing es with
  | nil => simp [memoryOrderFus]
  | cons fu rest ih =>
    unfold memoryOrderFus
    rw [ih, memoryOrderNodes_append, ih (memoryOrderNodes _ _ [])]
    simp

theorem mem_memoryOrderFus (fus : List ParExePipeline) (es : List ParExeEdge) (e : ParExeEdge) :
    e ∈ memoryOrderFus fus es ↔
      e ∈ es ∨ ∃ fu ∈ fus, e ∈ memoryOrderNodes fu.firstStage.nodes none [] := by
  induction fus generalizing es with
  | nil => simp [memoryOrderFus]
  | cons fu rest ih =>
    unfold memoryOrderFus
    rw [ih, memoryOrderNodes_append]
    simp only [List.mem_append, List.mem_cons, exists_eq_or_imp]
    tauto

/-- Every edge added on a node list: its target is a load node of the list, its source
the tracked node, owned either by the initial tracked load or by a load node that stands
earlier in the list. -/
theorem memoryOrderNodes_edge (l : List ParExeNode) (prev : Option ParExeNode)
    (es : List ParExeEdge) (e : ParExeEdge) (he : e ∈ memoryOrderNodes l prev es) :
    e ∈ es ∨ ∃ src b, e = memoryOrderEdge src b ∧ b.inst.inst.isLoad = true ∧
      src.inst.inst ≠ b.inst.inst ∧
      ((prev = some src ∧ b ∈ l) ∨
        ∃ a, List.Sublist [a, b] l ∧ a.inst.inst.isLoad = true ∧ src.inst = a.inst ∧
          ∃ r ∈ a.inst.nodes, r.category = pipeline_stage_category_t.FU ∧ src.id = r.id) := by
  induction l generalizing prev es with
  | nil => exact Or.inl (by simpa [memoryOrderNodes] using he)
  | cons node rest ih =>
    unfold memoryOrderNodes at he
    split at he
    · rename_i hload
      rcases ih _ _ he with h | ⟨src, b, hE, hb, hne, h⟩
      · -- the edge of this iteration, or an older one
        cases prev with
        | none => exact Or.inl (by simpa using h)
        | some pl =>
          by_cases hpl : pl.inst.inst = node.inst.inst
          · exact Or.inl (by simpa [hpl] using h)
          · simp only [hpl, ne_eq, not_false_eq_true, if_true, List.mem_append,
              List.mem_singleton] at h
            rcases h with h | h
            · exact Or.inl h
            · exact Or.inr ⟨pl, node, h, hload, hpl, Or.inl ⟨rfl, List.mem_cons_self _ _⟩⟩
      · right
        refine ⟨src, b, hE, hb, hne, ?_⟩
        rcases h with ⟨hprev, hbmem⟩ | ⟨a, hsub, ha, hsrc, hr⟩
        · rcases lastFUNodeLoop_cases node.inst node.inst.nodes prev with h2 | ⟨r, hr, hc, h2⟩
          · exact Or.inl ⟨by rw [← h2]; exact hprev, List.mem_cons_of_mem _ hbmem⟩
          · rw [h2] at hprev
            have hs : src = node.inst.node r.id := (Option.some.inj hprev).symm
            refine Or.inr ⟨node, ?_, hload, by rw [hs]; rfl, r, hr, hc, by rw [hs]; rfl⟩
            exact List.Sublist.cons₂ _ (List.singleton_sublist.mpr hbmem)
        · exact Or.inr ⟨a, List.Sublist.cons _ hsub, ha, hsrc, hr⟩
    · rcases ih _ _ he with h | ⟨src, b, hE, hb, hne, h⟩
      · exact Or.inl h
      · right
        refine ⟨src, b, hE, hb, hne, ?_⟩
        rcases h with ⟨hprev, hbmem⟩ | ⟨a, hsub, ha, hsrc, hr⟩
        · exact Or.inl ⟨hprev, List.mem_cons_of_mem _ hbmem⟩
        · exact Or.inr ⟨a, List.Sublist.cons _ hsub, ha, hsrc, hr⟩

theorem memoryOrderNodes_cons (node : ParExeNode) (rest : List ParExeNode)
    (prev : Option ParExeNode) (es : List ParExeEdge) :
    memoryOrderNodes (node :: rest) prev es =
      if node.inst.inst.isLoad = true then
        memoryOrderNodes rest (lastFUNodeLoop node.inst node.inst.nodes prev)
          (match prev with
           | some pl =>
             if pl.inst.inst ≠ node.inst.inst then es ++ [memoryOrderEdge pl node] else es
           | none => es)
      else memoryOrderNodes rest prev es := rfl

theorem memoryOrderNodes_skip (mid : List ParExeNode)
    (hmid : ∀ m ∈ mid, m.inst.inst.isLoad = false) (rest : List ParExeNode)
    (prev : Option ParExeNode) (es : List ParExeEdge) :
    memoryOrderNodes (mid ++ rest) prev es = memoryOrderNodes rest prev es := by
  induction mid with
  | nil => rfl
  | cons m mid ih =>
    have hm := hmid m (List.mem_cons_self _ _)
    rw [List.cons_append, memoryOrderNodes_cons]
    simp only [hm, Bool.false_eq_true, if_false]
    exact ih (fun x hx => hmid x (List.mem_cons_of_mem _ hx))

theorem memoryOrderNodes_mono (l : List ParExeNode) (prev : Option ParExeNode)
    (es : List ParExeEdge) (e : ParExeEdge) (he : e ∈ es) : e ∈ memoryOrderNodes l prev es := by
  rw [memoryOrderNodes_append]; exact List.mem_append_left _ he

theorem memoryOrderNodes_prefix (pre rest : List ParExeNode) (prev : Option ParExeNode)
    (es : List ParExeEdge) :
    ∃ prev1 es1, memoryOrderNodes (pre ++ rest) prev es = memoryOrderNodes rest prev1 es1 := by
  induction pre generalizing prev es with
  | nil => exact ⟨prev, es, rfl⟩
  | cons x pre ih =>
    rw [List.cons_append, memoryOrderNodes_cons]
    split
    · exact ih _ _
    · exact ih _ _

theorem memoryOrderNodes_consecutive (pre mid post : List ParExeNode) (a b n : ParExeNode)
    (ha : a.inst.inst.isLoad = true) (hb : b.inst.inst.isLoad = true)
    (hmid : ∀ m ∈ mid, m.inst.inst.isLoad = false)
    (hne : a.inst.inst ≠ b.inst.inst)
    (hn : lastFUNodeLoop a.inst a.inst.nodes none = some n)
    (prev : Option ParExeNode) (es : List ParExeEdge) :
    memoryOrderEdge n b ∈ memoryOrderNodes (pre ++ a :: (mid ++ b :: post)) prev es := by
  obtain ⟨prev1, es1, h⟩ := memoryOrderNodes_prefix pre (a :: (mid ++ b :: post)) prev es
  rw [h, memoryOrderNodes_cons]
  simp only [ha, if_true]
  rw [lastFUNodeLoop_some a.inst a.inst.nodes n hn, memoryOrderNodes_skip mid hmid,
    memoryOrderNodes_cons]
  simp only [hb, if_true]
  apply memoryOrderNodes_mono
  have hne2 : n.inst.inst ≠ b.inst.inst := by
    rcases lastFUNodeLoop_cases a.inst a.inst.nodes none with h2 | ⟨r, _, _, h2⟩
    · rw [h2] at hn; cases hn
    · rw [h2] at hn
      have : n = a.inst.node r.id := (Option.some.inj hn).symm
      rw [this]; exact hne
  simp [hne2]

theorem mem_addEdgesForMemoryOrder (stage : PipelineStage) (es : List ParExeEdge)
    (e : ParExeEdge) :
    e ∈ addEdgesForMemoryOrder stage es ↔
      e ∈ es ∨ ∃ fu ∈ stage.fus, e ∈ memoryOrderNodes fu.firstStage.nodes none [] :=
  mem_memoryOrderFus stage.fus es e

theorem addEdgesForMemoryOrder_append (stage : PipelineStage) (es : List ParExeEdge) :
    addEdgesForMemoryOrder stage es = es ++ addEdgesForMemoryOrder stage [] :=
  memoryOrderFus_append stage.fus es

/-- C3 as stated fails: three loads of three different instructions stand in the first
stage of the integer unit, the float unit holds no node, and the pass adds the edges from
the first load to the second and from the second to the third only; there is no edge
from the last functional-unit node of the first load to the node of the third. -/
theorem addEdgesForMemoryOrder_no_edge_across_load :
    (hostFUNode 0 (ldr 0)).inst.inst.isLoad = true ∧
    (hostFUNode 2 (ldr 8)).inst.inst.isLoad = true ∧
    lastFUNodeLoop (hostInst 0 (ldr 0)) (hostInst 0 (ldr 0)).nodes none =
      some (hostFUNode 0 (ldr 0)) ∧
    addEdgesForMemoryOrder
      (sampleExecStage [hostFUNode 0 (ldr 0), hostFUNode 1 (ldr 4), hostFUNode 2 (ldr 8)]) [] =
      [memoryOrderEdge (hostFUNode 0 (ldr 0)) (hostFUNode 1 (ldr 4)),
       memoryOrderEdge (hostFUNode 1 (ldr 4)) (hostFUNode 2 (ldr 8))] ∧
    memoryOrderEdge (hostFUNode 0 (ldr 0)) (hostFUNode 2 (ldr 8)) ∉
      addEdgesForMemoryOrder
        (sampleExecStage [hostFUNode 0 (ldr 0), hostFUNode 1 (ldr 4), hostFUNode 2 (ldr 8)])
        [] := by
  decide

/-- C3, amended: for two load nodes `a` before `b` of the node list of the first stage of
one functional unit, with no load node between them in that list and with different
underlying instructions, the pass adds the solid edge of latency 0 from the last
functional-unit-category node `n` of the instruction of `a` to `b`. -/
theorem addEdgesForMemoryOrder_consecutive_loads (stage : PipelineStage)
    (es : List ParExeEdge) (fu : ParExePipeline) (pre mid post : List ParExeNode)
    (a b n : ParExeNode) (hfu : fu ∈ stage.fus)
    (hl : fu.firstStage.nodes = pre ++ a :: (mid ++ b :: post))
    (ha : a.inst.inst.isLoad = true) (hb : b.inst.inst.isLoad = true)
    (hmid : ∀ m ∈ mid, m.inst.inst.isLoad = false)
    (hne : a.inst.inst ≠ b.inst.inst)
    (hn : lastFUNodeLoop a.inst a.inst.nodes none = some n) :
    (⟨n, b, edge_type_t.SOLID, 0, "memory order"⟩ : ParExeEdge) ∈
      addEdgesForMemoryOrder stage es := by
  rw [mem_addEdgesForMemoryOrder]
  refine Or.inr ⟨fu, hfu, ?_⟩
  rw [hl]
  exact memoryOrderNodes_consecutive pre mid post a b n ha hb hmid hne hn none []

/-- C3 amended, at the block `LDR; ADD; LDR` on the integer unit: the edge goes from the
functional-unit node of the first load to the node of the second load. -/
theorem addEdgesForMemoryOrder_consecutive_loads_witness :
    (⟨"EXEC_M4", [hostFUNode 0 (ldr 0), hostFUNode 1 (alu 4), hostFUNode 2 (ldr 8)]⟩ :
      ParExeStage).nodes =
      [] ++ hostFUNode 0 (ldr 0) :: ([hostFUNode 1 (alu 4)] ++ hostFUNode 2 (ldr 8) :: []) ∧
    (hostFUNode 0 (ldr 0)).inst.inst ≠ (hostFUNode 2 (ldr 8)).inst.inst ∧
    lastFUNodeLoop (hostFUNode 0 (ldr 0)).inst (hostFUNode 0 (ldr 0)).inst.nodes none =
      some (hostFUNode 0 (ldr 0)) ∧
    (⟨hostFUNode 0 (ldr 0), hostFUNode 2 (ldr 8), edge_type_t.SOLID, 0, "memory order"⟩ :
      ParExeEdge) ∈
      addEdgesForMemoryOrder
        (sampleExecStage [hostFUNode 0 (ldr 0), hostFUNode 1 (alu 4), hostFUNode 2 (ldr 8)]) [] :=
  ⟨by decide, by decide, by decide,
   addEdgesForMemoryOrder_consecutive_loads
     (sampleExecStage [hostFUNode 0 (ldr 0), hostFUNode 1 (alu 4), hostFUNode 2 (ldr 8)]) []
     ⟨⟨"EXEC_M4", [hostFUNode 0 (ldr 0), hostFUNode 1 (alu 4), hostFUNode 2 (ldr 8)]⟩⟩
     [] [hostFUNode 1 (alu 4)] [] (hostFUNode 0 (ldr 0)) (hostFUNode 2 (ldr 8))
     (hostFUNode 0 (ldr 0)) (by decide) (by decide) (by decide) (by decide) (by decide)
     (by decide) (by decide)⟩

/-- C4: every edge the pass adds has its two endpoints on load instructions that have a node
in the first stage of one and the same functional unit (the instruction of the source has
a load node there, the target is a load node there); so when every instruction is placed
in one functional unit only, the instructions of the two endpoints of an added edge are
never placed in different functional units. -/
theorem addEdgesForMemoryOrder_same_unit (stage : PipelineStage) (es : List ParExeEdge)
    (hone : ∀ (P : ParExeInst) (i j : Nat) (fi fj : ParExePipeline),
      stage.fus[i]? = some fi → stage.fus[j]? = some fj →
      placedIn P fi → placedIn P fj → i = j)
    (e : ParExeEdge) (he : e ∈ addEdgesForMemoryOrder stage es) :
    e ∈ es ∨
      ((∃ fu ∈ stage.fus, ∃ a ∈ fu.firstStage.nodes,
          a.inst = e.source.inst ∧ a.inst.inst.isLoad = true ∧
          e.target ∈ fu.firstStage.nodes ∧ e.target.inst.inst.isLoad = true) ∧
       (∀ (i j : Nat) (fi fj : ParExePipeline),
          stage.fus[i]? = some fi → stage.fus[j]? = some fj →
          placedIn e.source.inst fi → placedIn e.target.inst fj → i = j)) := by
  rcases (mem_addEdgesForMemoryOrder stage es e).mp he with h | ⟨fu, hfu, h⟩
  · exact Or.inl h
  · right
    rcases memoryOrderNodes_edge _ _ _ _ h with h | ⟨src, b, hE, hb, _, h⟩
    · simp at h
    · rcases h with ⟨h, _⟩ | ⟨a, hsub, ha, hsrc, _⟩
      · cases h
      · have ham : a ∈ fu.firstStage.nodes := hsub.subset (by simp)
        have hbm : b ∈ fu.firstStage.nodes := hsub.subset (by simp)
        have hes : e.source = src := by rw [hE]; rfl
        have het : e.target = b := by rw [hE]; rfl
        refine ⟨⟨fu, hfu, a, ham, by rw [hes, hsrc], ha, by rw [het]; exact hbm,
          by rw [het]; exact hb⟩, ?_⟩
        intro i j fi fj hi hj hpi hpj
        obtain ⟨m, hmfu⟩ := List.mem_iff_getElem?.mp hfu
        have h1 : i = m := hone e.source.inst i m fi fu hi hmfu hpi
          ⟨a, ham, by rw [hes, hsrc]⟩
        have h2 : j = m := hone e.target.inst j m fj fu hj hmfu hpj ⟨b, hbm, by rw [het]⟩
        rw [h1, h2]

theorem sampleTwoUnits_one_unit (P : ParExeInst) (i j : Nat) (fi fj : ParExePipeline)
    (hi : sampleTwoUnits.fus[i]? = some fi) (hj : sampleTwoUnits.fus[j]? = some fj)
    (hpi : placedIn P fi) (hpj : placedIn P fj) : i = j := by
  obtain ⟨n, hn, hnP⟩ := hpi
  obtain ⟨m, hm, hmP⟩ := hpj
  have hnm : n.inst = m.inst := hnP.trans hmP.symm
  match i, j with
  | 0, 0 => rfl
  | 1, 1 => rfl
  | 0, 1 =>
    simp only [sampleTwoUnits, List.getElem?_cons_zero, List.getElem?_cons_succ,
      Option.some.injEq] at hi hj
    subst hi hj
    simp only [List.mem_cons, List.mem_singleton, List.not_mem_nil, or_false] at hn hm
    subst hn
    rcases hm with hm | hm <;> subst hm <;> exact absurd hnm (by decide)
  | 1, 0 =>
    simp only [sampleTwoUnits, List.getElem?_cons_zero, List.getElem?_cons_succ,
      Option.some.injEq] at hi hj
    subst hi hj
    simp only [List.mem_cons, List.mem_singleton, List.not_mem_nil, or_false] at hn hm
    subst hm
    rcases hn with hn | hn <;> subst hn <;> exact absurd hnm (by decide)
  | i + 2, _ => simp [sampleTwoUnits] at hi
  | _, j + 2 => simp [sampleTwoUnits] at hj

/-- C4 at the block `LDR; VLDR; LDR`: the only edge added joins the two integer loads. -/
theorem addEdgesForMemoryOrder_same_unit_witness :
    memoryOrderEdge (hostFUNode 0 (ldr 0)) (hostFUNode 2 (ldr 8)) ∈
      addEdgesForMemoryOrder sampleTwoUnits [] ∧
    (memoryOrderEdge (hostFUNode 0 (ldr 0)) (hostFUNode 2 (ldr 8)) ∈ ([] : List ParExeEdge) ∨
      ((∃ fu ∈ sampleTwoUnits.fus, ∃ a ∈ fu.firstStage.nodes,
          a.inst = (memoryOrderEdge (hostFUNode 0 (ldr 0)) (hostFUNode 2 (ldr 8))).source.inst ∧
          a.inst.inst.isLoad = true ∧
          (memoryOrderEdge (hostFUNode 0 (ldr 0)) (hostFUNode 2 (ldr 8))).target ∈
            fu.firstStage.nodes ∧
          (memoryOrderEdge (hostFUNode 0 (ldr 0))
            (hostFUNode 2 (ldr 8))).target.inst.inst.isLoad = true) ∧
       (∀ (i j : Nat) (fi fj : ParExePipeline),
          sampleTwoUnits.fus[i]? = some fi → sampleTwoUnits.fus[j]? = some fj →
          placedIn (memoryOrderEdge (hostFUNode 0 (ldr 0)) (hostFUNode 2 (ldr 8))).source.inst fi →
          placedIn (memoryOrderEdge (hostFUNode 0 (ldr 0)) (hostFUNode 2 (ldr 8))).target.inst fj →
          i = j))) :=
  ⟨by decide,
   addEdgesForMemoryOrder_same_unit sampleTwoUnits [] sampleTwoUnits_one_unit
     (memoryOrderEdge (hostFUNode 0 (ldr 0)) (hostFUNode 2 (ldr 8))) (by decide)⟩

/-! ### Direction and latency of what the three passes add -/

theorem pipelineOrder_latency_ge (d : Decoder) (seq : List ParExeInst) (latency : Nat → Int)
    (n : Nat) :
    addEdgesForPipelineOrder d seq latency n = latency n ∨
      1 ≤ addEdgesForPipelineOrder d seq latency n := by
  induction seq generalizing latency with
  | nil => exact Or.inl rfl
  | cons Q rest ih =>
    unfold addEdgesForPipelineOrder
    simp only
    split
    · rename_i hc
      rcases ih (setLatency latency Q.firstFUNode (instCost d Q.inst - 1)) with h | h
      · by_cases hn : n = Q.firstFUNode
        · right
          rw [h]
          simp only [setLatency, hn, if_true]
          omega
        · left
          rw [h]
          simp [setLatency, hn]
      · exact Or.inr h
    · exact ih latency

/-- C8: when the node list of the first stage of every functional unit is in program order
(of two nodes of the list, the instruction of the earlier one stands at a position of the
sequence not after that of the later one), every edge added by the memory-order pass and
by the data-dependency pass goes from a node of an instruction at some position of the
sequence to a node of an instruction at a strictly later position, with latency 0 for
memory order and 1 for data dependencies, and every latency of a node after the
pipeline-order pass is the one the host left or is at least 1. -/
theorem added_edges_forward (d : Decoder) (seq : List ParExeInst) (stage : PipelineStage)
    (es : List ParExeEdge)
    (horder : ∀ fu ∈ stage.fus, fu.firstStage.nodes.Pairwise
      (fun a b => ∃ p q : Nat, p ≤ q ∧ seq[p]? = some a.inst ∧ seq[q]? = some b.inst)) :
    (∀ e ∈ addEdgesForMemoryOrder stage es, e ∈ es ∨
      ((∃ p q : Nat, p < q ∧ seq[p]? = some e.source.inst ∧ seq[q]? = some e.target.inst) ∧
        e.latency = 0)) ∧
    (∀ e ∈ addEdgesForDataDependencies d seq es, e ∈ es ∨
      ((∃ p q : Nat, p < q ∧ seq[p]? = some e.source.inst ∧ seq[q]? = some e.target.inst) ∧
        e.latency = 1)) ∧
    (∀ (latency : Nat → Int) (n : Nat),
      addEdgesForPipelineOrder d seq latency n = latency n ∨
        1 ≤ addEdgesForPipelineOrder d seq latency n) := by
  refine ⟨fun e he => ?_, fun e he => ?_, fun latency n => pipelineOrder_latency_ge d seq latency n⟩
  · rcases (mem_addEdgesForMemoryOrder stage es e).mp he with h | ⟨fu, hfu, h⟩
    · exact Or.inl h
    · right
      rcases memoryOrderNodes_edge _ _ _ _ h with h | ⟨src, b, hE, _, hne, h⟩
      · simp at h
      · rcases h with ⟨h, _⟩ | ⟨a, hsub, _, hsrc, _⟩
        · cases h
        · have hpair := List.pairwise_pair.mp ((horder fu hfu).sublist hsub)
          obtain ⟨p, q, hpq, hp, hq⟩ := hpair
          have hpq2 : p ≠ q := by
            intro heq
            rw [heq, hq] at hp
            have hab : b.inst = a.inst := Option.some.inj hp
            exact hne (by rw [hsrc, hab])
          subst hE
          exact ⟨⟨p, q, lt_of_le_of_ne hpq hpq2, by simpa [memoryOrderEdge, hsrc] using hp,
            by simpa [memoryOrderEdge] using hq⟩, rfl⟩
  · rcases (mem_addEdgesForDataDependencies d seq es e).mp he with h | ⟨k, P, Q, hP, hQ, hE, _⟩
    · exact Or.inl h
    · right
      subst hE
      exact ⟨⟨k, k + 1, Nat.lt_succ_self k, hP, hQ⟩, rfl⟩

theorem sampleTwoUnits_program_order :
    ∀ fu ∈ sampleTwoUnits.fus, fu.firstStage.nodes.Pairwise
      (fun a b => ∃ p q : Nat, p ≤ q ∧ sampleTwoUnitsSeq[p]? = some a.inst ∧
        sampleTwoUnitsSeq[q]? = some b.inst) := by
  intro fu hfu
  simp only [sampleTwoUnits, List.mem_cons, List.mem_singleton, List.not_mem_nil,
    or_false] at hfu
  rcases hfu with rfl | rfl
  · exact List.pairwise_singleton _ _
  · exact List.pairwise_pair.mpr ⟨0, 2, by decide, by decide, by decide⟩

/-- C8 at the block `LDR; VLDR; LDR` with the decoder of the examples and no host edge. -/
theorem added_edges_forward_witness :
    (∀ e ∈ addEdgesForMemoryOrder sampleTwoUnits [], e ∈ ([] : List ParExeEdge) ∨
      ((∃ p q : Nat, p < q ∧ sampleTwoUnitsSeq[p]? = some e.source.inst ∧
          sampleTwoUnitsSeq[q]? = some e.target.inst) ∧ e.latency = 0)) ∧
    (∀ e ∈ addEdgesForDataDependencies sampleDecoder sampleTwoUnitsSeq [],
      e ∈ ([] : List ParExeEdge) ∨
      ((∃ p q : Nat, p < q ∧ sampleTwoUnitsSeq[p]? = some e.source.inst ∧
          sampleTwoUnitsSeq[q]? = some e.target.inst) ∧ e.latency = 1)) ∧
    (∀ (latency : Nat → Int) (n : Nat),
      addEdgesForPipelineOrder sampleDecoder sampleTwoUnitsSeq latency n = latency n ∨
        1 ≤ addEdgesForPipelineOrder sampleDecoder sampleTwoUnitsSeq latency n) :=
  added_edges_forward sampleDecoder sampleTwoUnitsSeq sampleTwoUnits []
    sampleTwoUnits_program_order

/-! ### Unknown-instruction log -/

theorem loggedAddresses_append (l1 l2 : List LogLine) :
    loggedAddresses (l1 ++ l2) = loggedAddresses l1 ++ loggedAddresses l2 := by
  induction l1 with
  | nil => rfl
  | cons x rest ih => cases x <;> simp [loggedAddresses, ih]

/-- One block: from a duplicate-free set, the loop returns normally, appends lines to the
log, and appends the addresses of exactly these lines to the set. -/
theorem dumpLoop_spec (d : Decoder) (seq : List ParExeInst) (out : FileOutput)
    (v : List Nat) (hv : v.Nodup) :
    ∃ new : List LogLine,
      dumpLoop d seq out (some v) =
        some (⟨out.path, out.written ++ new⟩, some (v ++ loggedAddresses new)) ∧
      (v ++ loggedAddresses new).Nodup ∧
      (∀ a, a ∈ v ++ loggedAddresses new ↔
        a ∈ v ∨ ∃ P ∈ seq, (getInstCycleTiming d P.inst).unknown = true ∧ P.inst.address = a) ∧
      ∀ line ∈ new, ∃ P ∈ seq, (getInstCycleTiming d P.inst).unknown = true ∧
        line = LogLine.unknownInst P.inst.address P.inst := by
  induction seq generalizing out v with
  | nil => exact ⟨[], by simp [dumpLoop, loggedAddresses], by simpa [loggedAddresses] using hv,
      by simp [loggedAddresses], by simp⟩
  | cons P rest ih =>
    by_cases hu : (getInstCycleTiming d P.inst).unknown = true
    · by_cases hc : P.inst.address ∈ v
      · obtain ⟨new, h1, h2, h3, h4⟩ := ih out v hv
        refine ⟨new, ?_, h2, ?_, fun line hl => ?_⟩
        rotate_left 2
        · obtain ⟨Q, hQ, hQ2⟩ := h4 line hl
          exact ⟨Q, List.mem_cons_of_mem _ hQ, hQ2⟩
        · simp [dumpLoop, hu, hc, h1]
        · intro a
          rw [h3 a]
          constructor
          · rintro (h | ⟨Q, hQ, hQu, hQa⟩)
            · exact Or.inl h
            · exact Or.inr ⟨Q, List.mem_cons_of_mem _ hQ, hQu, hQa⟩
          · rintro (h | ⟨Q, hQ, hQu, hQa⟩)
            · exact Or.inl h
            · rcases List.mem_cons.mp hQ with rfl | hQ
              · exact Or.inl (hQa ▸ hc)
              · exact Or.inr ⟨Q, hQ, hQu, hQa⟩
      · have hv2 : (v ++ [P.inst.address]).Nodup := by
          rw [List.nodup_append]
          refine ⟨hv, List.nodup_singleton _, ?_⟩
          intro a ha hb
          rw [List.mem_singleton] at hb
          exact hc (hb ▸ ha)
        obtain ⟨new, h1, h2, h3, h4⟩ := ih
          ⟨out.path, out.written ++ [LogLine.unknownInst P.inst.address P.inst]⟩ _ hv2
        refine ⟨LogLine.unknownInst P.inst.address P.inst :: new, ?_, ?_, ?_, fun line hl => ?_⟩
        rotate_left 3
        · rcases List.mem_cons.mp hl with rfl | hl
          · exact ⟨P, List.mem_cons_self _ _, hu, rfl⟩
          · obtain ⟨Q, hQ, hQ2⟩ := h4 line hl
            exact ⟨Q, List.mem_cons_of_mem _ hQ, hQ2⟩
        · simp [dumpLoop, hu, hc, h1, loggedAddresses]
        · simpa [loggedAddresses] using h2
        · intro a
          have h3a := h3 a
          simp only [loggedAddresses, List.append_assoc, List.singleton_append,
            List.mem_append, List.mem_cons, List.mem_singleton, List.not_mem_nil,
            or_false] at h3a ⊢
          rw [h3a]
          constructor
          · rintro ((h | h) | ⟨Q, hQ, hQu, hQa⟩)
            · exact Or.inl h
            · exact Or.inr ⟨P, Or.inl rfl, hu, h.symm⟩
            · exact Or.inr ⟨Q, Or.inr hQ, hQu, hQa⟩
          · rintro (h | ⟨Q, hQ, hQu, hQa⟩)
            · exact Or.inl (Or.inl h)
            · rcases hQ with rfl | hQ
              · exact Or.inl (Or.inr hQa.symm)
              · exact Or.inr ⟨Q, hQ, hQu, hQa⟩
    · obtain ⟨new, h1, h2, h3, h4⟩ := ih out v hv
      refine ⟨new, ?_, h2, ?_, fun line hl => ?_⟩
      rotate_left 2
      · obtain ⟨Q, hQ, hQ2⟩ := h4 line hl
        exact ⟨Q, List.mem_cons_of_mem _ hQ, hQ2⟩
      · simp [dumpLoop, hu, h1]
      · intro a
        rw [h3 a]
        constructor
        · rintro (h | ⟨Q, hQ, hQu, hQa⟩)
          · exact Or.inl h
          · exact Or.inr ⟨Q, List.mem_cons_of_mem _ hQ, hQu, hQa⟩
        · rintro (h | ⟨Q, hQ, hQu, hQa⟩)
          · exact Or.inl h
          · rcases List.mem_cons.mp hQ with rfl | hQ
            · exact absurd hQu hu
            · exact Or.inr ⟨Q, hQ, hQu, hQa⟩

theorem dumpRun_spec (d : Decoder) (blocks : List (List ParExeInst)) (out : FileOutput)
    (v : List Nat) (hv : v.Nodup) :
    ∃ new : List LogLine,
      dumpRun d blocks (some out) (some v) =
        some (some ⟨out.path, out.written ++ new⟩, some (v ++ loggedAddresses new)) ∧
      (v ++ loggedAddresses new).Nodup ∧
      (∀ a, a ∈ v ++ loggedAddresses new ↔
        a ∈ v ∨ ∃ seq ∈ blocks, ∃ P ∈ seq,
          (getInstCycleTiming d P.inst).unknown = true ∧ P.inst.address = a) ∧
      ∀ line ∈ new, ∃ seq ∈ blocks, ∃ P ∈ seq, (getInstCycleTiming d P.inst).unknown = true ∧
        line = LogLine.unknownInst P.inst.address P.inst := by
  induction blocks generalizing out v with
  | nil => exact ⟨[], by simp [dumpRun, loggedAddresses], by simpa [loggedAddresses] using hv,
      by simp [loggedAddresses], by simp⟩
  | cons seq rest ih =>
    obtain ⟨new1, h1, h2, h3, h4⟩ := dumpLoop_spec d seq out v hv
    obtain ⟨new2, k1, k2, k3, k4⟩ := ih ⟨out.path, out.written ++ new1⟩ _ h2
    refine ⟨new1 ++ new2, ?_, ?_, ?_, fun line hl => ?_⟩
    rotate_left 3
    · rcases List.mem_append.mp hl with hl | hl
      · exact ⟨seq, List.mem_cons_self _ _, h4 line hl⟩
      · obtain ⟨s2, hs2, hP⟩ := k4 line hl
        exact ⟨s2, List.mem_cons_of_mem _ hs2, hP⟩
    · simp [dumpRun, dumpUnknowInst, h1, k1, loggedAddresses_append]
    · simpa [loggedAddresses_append] using k2
    · intro a
      have k3a := k3 a
      have h3a := h3 a
      simp only [loggedAddresses_append, List.append_assoc, List.mem_append,
        List.mem_cons, exists_eq_or_imp] at k3a h3a ⊢
      rw [k3a, h3a]
      exact or_assoc

/-- C5: in a run over any series of blocks that starts from the empty address set with a
sink, every dump returns normally; the lines the run appends to the sink are all dump
lines of unknown instructions of the blocks; the addresses of these lines are exactly the
final address set, which has no duplicate; so no address is written twice, and an
address is written once exactly when some instruction of some block has it and has an
unknown descriptor. -/
theorem dumpRun_logs_once (d : Decoder) (blocks : List (List ParExeInst)) (out : FileOutput) :
    ∃ (new : List LogLine) (v : List Nat),
      dumpRun d blocks (some out) (some []) =
        some (some ⟨out.path, out.written ++ new⟩, some v) ∧
      v.Nodup ∧ loggedAddresses new = v ∧
      (∀ line ∈ new, ∃ seq ∈ blocks, ∃ P ∈ seq,
        (getInstCycleTiming d P.inst).unknown = true ∧
        line = LogLine.unknownInst P.inst.address P.inst) ∧
      (∀ a, (loggedAddresses new).count a ≤ 1) ∧
      (∀ a, (loggedAddresses new).count a = 1 ↔
        ∃ seq ∈ blocks, ∃ P ∈ seq,
          (getInstCycleTiming d P.inst).unknown = true ∧ P.inst.address = a) := by
  obtain ⟨new, h1, h2, h3, h4⟩ := dumpRun_spec d blocks out [] List.nodup_nil
  simp only [List.nil_append, List.not_mem_nil, false_or] at h1 h2 h3
  refine ⟨new, loggedAddresses new, h1, h2, rfl, h4, fun a => ?_, fun a => ?_⟩
  · exact List.nodup_iff_count_le_one.mp h2 a
  · rw [← h3 a]
    constructor
    · intro h
      exact List.count_pos_iff.mp (by omega)
    · intro h
      exact List.count_eq_one_of_mem h2 h

theorem dumpRun_loop_example :
    dumpRun sampleDecoder
      [[hostInst 0 (alu 16), hostInst 1 (alu 8), hostInst 2 (alu 16)], [hostInst 0 (alu 16)]]
      (some ⟨"prog.log", []⟩) (some []) =
      some (some ⟨"prog.log", [LogLine.unknownInst 16 (alu 16)]⟩, some [16]) := by
  decide

/-! ### Graph construction and setup -/

theorem scanFus_ok (fus : List ParExePipeline) (g g1 : M4ExeGraph)
    (h : scanFus fus g = Except.ok g1) :
    g1.stage = g.stage ∧
    (g1.exec_f.isSome = true → g.exec_f.isSome = true ∨
      ∃ fu ∈ fus, startsWith fu.firstStage.name "EXEC_F" = true) ∧
    (g1.exec_m4.isSome = true → g.exec_m4.isSome = true ∨
      ∃ fu ∈ fus, startsWith fu.firstStage.name "EXEC_M4" = true) := by
  induction fus generalizing g with
  | nil =>
    simp only [scanFus, Except.ok.injEq] at h
    subst h
    exact ⟨rfl, fun h => Or.inl h, fun h => Or.inl h⟩
  | cons fu rest ih =>
    unfold scanFus at h
    split at h
    · rename_i hf
      obtain ⟨h1, h2, h3⟩ := ih _ h
      refine ⟨h1, fun _ => Or.inr ⟨fu, List.mem_cons_self _ _, hf⟩, fun hm => ?_⟩
      rcases h3 hm with h | ⟨fu2, hfu2, h⟩
      · exact Or.inl h
      · exact Or.inr ⟨fu2, List.mem_cons_of_mem _ hfu2, h⟩
    · split at h
      · rename_i hm4
        obtain ⟨h1, h2, h3⟩ := ih _ h
        refine ⟨h1, fun hf => ?_, fun _ => Or.inr ⟨fu, List.mem_cons_self _ _, hm4⟩⟩
        rcases h2 hf with h | ⟨fu2, hfu2, h⟩
        · exact Or.inl h
        · exact Or.inr ⟨fu2, List.mem_cons_of_mem _ hfu2, h⟩
      · cases h

theorem scanStages_ok (pipeline : List PipelineStage) (g g1 : M4ExeGraph)
    (h : scanStages pipeline g = Except.ok g1) :
    (g1.exec_f.isSome = true → g.exec_f.isSome = true ∨
      ∃ s ∈ pipeline, s.name = "EXE" ∧
        ∃ fu ∈ s.fus, startsWith fu.firstStage.name "EXEC_F" = true) ∧
    (g1.exec_m4.isSome = true → g.exec_m4.isSome = true ∨
      ∃ s ∈ pipeline, s.name = "EXE" ∧
        ∃ fu ∈ s.fus, startsWith fu.firstStage.name "EXEC_M4" = true) ∧
    (∀ i, (g1.stage i).isSome = true →
      (g.stage i).isSome = true ∨ ∃ s ∈ pipeline, s.name = stageName i) := by
  induction pipeline generalizing g with
  | nil =>
    simp only [scanStages, Except.ok.injEq] at h
    subst h
    exact ⟨fun h => Or.inl h, fun h => Or.inl h, fun _ h => Or.inl h⟩
  | cons s rest ih =>
    have lift1 : ∀ {A : Prop} {q : PipelineStage → Prop}, (A ∨ ∃ t ∈ rest, q t) →
        (A ∨ ∃ t ∈ s :: rest, q t) := by
      rintro A q (h | ⟨t, ht, hq⟩)
      · exact Or.inl h
      · exact Or.inr ⟨t, List.mem_cons_of_mem _ ht, hq⟩
    have upd : ∀ (st : pipeline_stage_t → Option PipelineStage) (j i : pipeline_stage_t),
        s.name = stageName j →
        ((setStage st j s i).isSome = true ∨ ∃ t ∈ rest, t.name = stageName i) →
        ((st i).isSome = true ∨ ∃ t ∈ s :: rest, t.name = stageName i) := by
      intro st j i hj hor
      rcases hor with h | ⟨t, ht, hq⟩
      · by_cases hij : i = j
        · exact Or.inr ⟨s, List.mem_cons_self _ _, by rw [hij]; exact hj⟩
        · left; simpa [setStage, hij] using h
      · exact Or.inr ⟨t, List.mem_cons_of_mem _ ht, hq⟩
    unfold scanStages at h
    split at h
    · rename_i hn
      obtain ⟨h1, h2, h3⟩ := ih _ h
      exact ⟨fun k => lift1 (h1 k), fun k => lift1 (h2 k),
        fun i k => upd g.stage pipeline_stage_t.FE i hn (h3 i k)⟩
    · split at h
      · rename_i hn
        obtain ⟨h1, h2, h3⟩ := ih _ h
        exact ⟨fun k => lift1 (h1 k), fun k => lift1 (h2 k),
          fun i k => upd g.stage pipeline_stage_t.DE i hn (h3 i k)⟩
      · split at h
        · rename_i hexe
          split at h
          · cases h
          · rename_i g2 hscan
            obtain ⟨f1, f2, f3⟩ := scanFus_ok _ _ _ hscan
            obtain ⟨h1, h2, h3⟩ := ih _ h
            refine ⟨fun k => ?_, fun k => ?_, fun i k => ?_⟩
            · rcases h1 k with h | h
              · rcases f2 h with h | ⟨fu, hfu, hp⟩
                · exact Or.inl h
                · exact Or.inr ⟨s, List.mem_cons_self _ _, hexe, fu, hfu, hp⟩
              · exact lift1 (Or.inr h)
            · rcases h2 k with h | h
              · rcases f3 h with h | ⟨fu, hfu, hp⟩
                · exact Or.inl h
                · exact Or.inr ⟨s, List.mem_cons_self _ _, hexe, fu, hfu, hp⟩
              · exact lift1 (Or.inr h)
            · have := h3 i k
              rw [f1] at this
              exact upd g.stage pipeline_stage_t.EXE i hexe this
        · split at h
          · rename_i hw
            obtain ⟨h1, h2, h3⟩ := ih _ h
            exact ⟨fun k => lift1 (h1 k), fun k => lift1 (h2 k),
              fun i k => upd g.stage pipeline_stage_t.WR i hw (h3 i k)⟩
          · obtain ⟨h1, h2, h3⟩ := ih _ h
            exact ⟨fun k => lift1 (h1 k), fun k => lift1 (h2 k), fun i k => lift1 (h3 i k)⟩

theorem checkStages_ok (g : M4ExeGraph) (h : checkStages g = Except.ok ()) :
    (∀ i, (g.stage i).isSome = true) ∧ g.exec_f.isSome = true ∧
      g.exec_m4.isSome = true := by
  unfold checkStages at h
  repeat' split at h
  all_goals cases h
  rename_i h1 h2 h3 h4 h5 h6
  simp only [Option.isNone_iff_eq_none] at h1 h2 h3 h4 h5 h6
  simp only [Option.isSome_iff_ne_none]
  exact ⟨fun i => by cases i <;> assumption, h5, h6⟩

theorem build_ok (pipeline : List PipelineStage) (g : M4ExeGraph)
    (h : (build pipeline g).isOk = true) :
    ∃ g1, scanStages pipeline g = Except.ok g1 ∧ checkStages g1 = Except.ok () := by
  unfold build at h
  split at h
  · simp [Except.isOk, Except.toBool] at h
  · rename_i g1 hs
    split at h
    · simp [Except.isOk, Except.toBool] at h
    · rename_i u hc
      exact ⟨g1, hs, hc⟩

/-- A graph whose stage table starts as null everywhere is not built on a pipeline that
lacks one of the stages `Fetch`, `Decode`, `EXE`, `Write`. -/
theorem build_missing_stage_zeroed (pipeline : List PipelineStage) (out : Option FileOutput)
    (set : Option (List Nat)) (i : pipeline_stage_t)
    (hmiss : ∀ s ∈ pipeline, s.name ≠ stageName i) :
    (build pipeline (M4ExeGraph.new (fun _ => none) out set)).isOk = false := by
  by_contra hne
  have hok : (build pipeline (M4ExeGraph.new (fun _ => none) out set)).isOk = true := by
    simpa using hne
  obtain ⟨g1, hs, hc⟩ := build_ok _ _ hok
  obtain ⟨_, _, h3⟩ := scanStages_ok _ _ _ hs
  rcases h3 i ((checkStages_ok g1 hc).1 i) with h | ⟨s, hs, hn⟩
  · simp [M4ExeGraph.new] at h
  · exact hmiss s hs hn

/-- C6 as stated fails: the stage `EXE` of this pipeline has two functional units whose
first stage name starts with `EXEC_F`, and `build` passes all its checks and makes the
construction calls. -/
theorem build_accepts_two_float_units :
    (pipelineTwoFloat.map (fun s =>
      (s.name, (s.fus.filter (fun fu => startsWith fu.firstStage.name "EXEC_F")).length))) =
      [("Fetch", 0), ("Decode", 0), ("EXE", 2), ("Write", 0)] ∧
    (build pipelineTwoFloat (M4ExeGraph.new (fun _ => none) none none)).isOk = true := by
  decide

/-- C7: evaluation at the failing input. The pipeline has no stage named `Write`; the stage
table of the new graph, which the constructor does not initialise, holds a non-null value
at `WR`; `build` passes the stage checks and goes on to `createSequenceResources` and
`createNodes`. -/
theorem build_stale_stage_table :
    (pipelineNoWrite.all (fun s => s.name != "Write")) = true ∧
    ((build pipelineNoWrite (M4ExeGraph.new staleStageTable none none)).toOption.map Prod.snd) =
      some [BuildStep.createSequenceResources, BuildStep.createNodes,
        BuildStep.addEdgesForPipelineOrder, BuildStep.addEdgesForFetch,
        BuildStep.addEdgesForProgramOrder, BuildStep.addEdgesForMemoryOrder,
        BuildStep.addEdgesForDataDependencies, BuildStep.dumpUnknowInst] := by
  decide

/-- C10: the setup of the base class having returned, `setup` raises a `ProcessorException`
exactly when the workspace provides a cache configuration, and when it raises, the
builder (log stream and address set included) is as it was before the call. -/
theorem setup_cache (ws : WorkSpace) (b : BBTimerSTM32M4F) (hbase : ws.base_setup = none) :
    ((∃ msg, (setup ws b).2 = some (Exception.ProcessorException msg)) ↔
      ws.cache_config.isSome = true) ∧
    ((setup ws b).2 ≠ none → ws.cache_config.isSome = true ∧ (setup ws b).1 = b) := by
  unfold setup
  rw [hbase]
  by_cases hc : ws.cache_config.isSome = true
  · simp [hc]
  · by_cases hw : b.write_log = true <;> simp [hc, hw]

/-- C10 at a workspace with a cache configuration and a builder configured to log. -/
theorem setup_cache_witness :
    (⟨some (), "prog", false, none⟩ : WorkSpace).base_setup = none ∧
    ((∃ msg, (setup ⟨some (), "prog", false, none⟩ (configure true BBTimerSTM32M4F.new)).2 =
        some (Exception.ProcessorException msg)) ↔
      (⟨some (), "prog", false, none⟩ : WorkSpace).cache_config.isSome = true) ∧
    ((setup ⟨some (), "prog", false, none⟩ (configure true BBTimerSTM32M4F.new)).2 ≠ none →
      (⟨some (), "prog", false, none⟩ : WorkSpace).cache_config.isSome = true ∧
      (setup ⟨some (), "prog", false, none⟩ (configure true BBTimerSTM32M4F.new)).1 =
        configure true BBTimerSTM32M4F.new) :=
  ⟨rfl, setup_cache ⟨some (), "prog", false, none⟩ (configure true BBTimerSTM32M4F.new) rfl⟩

/-! ### The doubled data-dependency edge -/

/-- C11: in the sequence X, A, B where A and B have `dep` set, the pass adds the edge from
the last functional-unit node of A to the fetch node of B twice: the list of added edges
is X to A, A to B, A to B, the edge is solid with latency 1 and occurs two times. At the
iteration of B the loop starts with the pending flag set and previous instruction A:
with the flag alone (B without `dep`) it adds the edge once, with `dep` of B alone (flag
clear) it adds it once, and with both it adds it twice. -/
theorem addEdgesForDataDependencies_doubled_edge :
    (getInstCycleTiming twoDepDecoder (hostInst 1 (alu 4)).inst).dep = true ∧
    (getInstCycleTiming twoDepDecoder (hostInst 2 (alu 8)).inst).dep = true ∧
    addEdgesForDataDependencies twoDepDecoder
      [hostInst 0 (alu 0), hostInst 1 (alu 4), hostInst 2 (alu 8)] [] =
      [dataDepEdge (hostInst 0 (alu 0)) (hostInst 1 (alu 4)),
       dataDepEdge (hostInst 1 (alu 4)) (hostInst 2 (alu 8)),
       dataDepEdge (hostInst 1 (alu 4)) (hostInst 2 (alu 8))] ∧
    (addEdgesForDataDependencies twoDepDecoder
      [hostInst 0 (alu 0), hostInst 1 (alu 4), hostInst 2 (alu 8)] []).count
      (dataDepEdge (hostInst 1 (alu 4)) (hostInst 2 (alu 8))) = 2 ∧
    dataDepEdge (hostInst 1 (alu 4)) (hostInst 2 (alu 8)) =
      ⟨(hostInst 1 (alu 4)).node (hostInst 1 (alu 4)).lastFUNode,
       (hostInst 2 (alu 8)).node (hostInst 2 (alu 8)).fetchNode, edge_type_t.SOLID, 1,
       "Data dep"⟩ ∧
    dataDepLoop twoDepDecoder (some (hostInst 1 (alu 4))) true [hostInst 2 (alu 12)] [] =
      [dataDepEdge (hostInst 1 (alu 4)) (hostInst 2 (alu 12))] ∧
    dataDepLoop twoDepDecoder (some (hostInst 1 (alu 4))) false [hostInst 2 (alu 8)] [] =
      [dataDepEdge (hostInst 1 (alu 4)) (hostInst 2 (alu 8))] ∧
    dataDepLoop twoDepDecoder (some (hostInst 1 (alu 4))) true [hostInst 2 (alu 8)] [] =
      [dataDepEdge (hostInst 1 (alu 4)) (hostInst 2 (alu 8)),
       dataDepEdge (hostInst 1 (alu 4)) (hostInst 2 (alu 8))] := by
  decide

/-! ### The exact list of data-dependency edges -/

theorem dataDepCopies_at (d : Decoder) (pre : List ParExeInst) (p i : ParExeInst)
    (rest : List ParExeInst) :
    dataDepCopies d (pre ++ p :: i :: rest) (pre.length + 1) =
      (if (decide (1 ≤ pre.length) && (getInstCycleTiming d p.inst).dep) = true
        then [dataDepEdge p i] else []) ++
      (if (getInstCycleTiming d i.inst).dep = true then [dataDepEdge p i] else []) := by
  have h1 : (pre ++ p :: i :: rest)[pre.length]? = some p := by
    rw [List.getElem?_append_right (Nat.le_refl _)]
    simp
  have h2 : (pre ++ p :: i :: rest)[pre.length + 1]? = some i := by
    rw [List.getElem?_append_right (by omega)]
    simp
  simp only [dataDepCopies, h1, h2]
  cases hp : (getInstCycleTiming d p.inst).dep <;> cases hi : (getInstCycleTiming d i.inst).dep <;>
    by_cases hl : 1 ≤ pre.length <;> simp [hl, List.replicate]

theorem dataDepLoop_expected (d : Decoder) (l pre : List ParExeInst) (p : ParExeInst) :
    dataDepLoop d (some p) (decide (1 ≤ pre.length) && (getInstCycleTiming d p.inst).dep) l [] =
      (List.range' (pre.length + 1) l.length).flatMap (dataDepCopies d (pre ++ p :: l)) := by
  induction l generalizing pre p with
  | nil => simp [dataDepLoop]
  | cons i rest ih =>
    rw [dataDepLoop_some, dataDepLoop_append, List.length_cons, List.range'_succ,
      List.flatMap_cons, dataDepCopies_at]
    have hih := ih (pre ++ [p]) i
    simp only [List.length_append, List.length_singleton, List.append_assoc,
      List.singleton_append, Nat.le_add_left, decide_True, Bool.true_and] at hih
    rw [hih]
    simp

/-- C13: for every sequence and every edge list left by the host pass, the edge list after
`addEdgesForDataDependencies` is the host list followed by exactly the expected edges:
for each position `k` with `1 ≤ k < n`, in order, `[dep(i_k)] + [k ≥ 2 and dep(i_(k-1))]`
copies of the solid latency-1 edge from the last functional-unit node of `i_(k-1)` to the
fetch node of `i_k`, and nothing else (equal lists, hence equal multisets). Position 0
contributes no edge whatever the flag of `i_0`, and an empty or one-instruction sequence
gets no edge. -/
theorem addEdgesForDataDependencies_exact (d : Decoder) (seq : List ParExeInst)
    (es : List ParExeEdge) :
    addEdgesForDataDependencies d seq es = es ++ dataDepExpected d seq ∧
    (∀ e, (addEdgesForDataDependencies d seq []).count e = (dataDepExpected d seq).count e) ∧
    dataDepCopies d seq 0 = [] ∧
    addEdgesForDataDependencies d [] es = es ∧
    (∀ i, addEdgesForDataDependencies d [i] es = es) ∧
    (∀ p i, dataDepEdge p i =
      ⟨p.node p.lastFUNode, i.node i.fetchNode, edge_type_t.SOLID, 1, "Data dep"⟩) := by
  have main : ∀ es, addEdgesForDataDependencies d seq es = es ++ dataDepExpected d seq := by
    intro es
    unfold addEdgesForDataDependencies dataDepExpected
    cases seq with
    | nil => simp [dataDepLoop]
    | cons i0 l =>
      have h : dataDepLoop d (some i0) false l [] =
          (List.range' 1 l.length).flatMap (dataDepCopies d (i0 :: l)) :=
        dataDepLoop_expected d l [] i0
      rw [dataDepLoop_none, dataDepLoop_append, h, List.length_cons, List.range_eq_range',
        List.range'_succ, List.flatMap_cons]
      simp [dataDepCopies]
  refine ⟨main es, fun e => ?_, rfl, ?_, fun i => ?_, fun p i => rfl⟩
  · rw [main []]; simp
  · simp [addEdgesForDataDependencies, dataDepLoop]
  · simp [addEdgesForDataDependencies, dataDepLoop]

/-! ### The exact list of memory-order edges -/

theorem lastFUNodeLoop_eq (P : ParExeInst) (ns : List InstNode) (prev : Option ParExeNode) :
    lastFUNodeLoop P ns prev =
      (((ns.filter (fun r => r.category = pipeline_stage_category_t.FU)).getLast?).map
        (fun r => P.node r.id)).or prev := by
  induction ns generalizing prev with
  | nil => simp [lastFUNodeLoop]
  | cons r rest ih =>
    unfold lastFUNodeLoop
    by_cases hr : r.category = pipeline_stage_category_t.FU
    · rw [if_pos hr, ih, List.filter_cons_of_pos (by simpa using hr), List.getLast?_cons]
      cases (List.filter (fun r => decide (r.category = pipeline_stage_category_t.FU))
        rest).getLast? <;> simp
    · rw [if_neg hr, ih, List.filter_cons_of_neg (by simpa using hr)]

theorem lastFUNodeLoop_of_lastFUCategoryNode (P : ParExeInst) (n : ParExeNode)
    (h : lastFUCategoryNode P = some n) (prev : Option ParExeNode) :
    lastFUNodeLoop P P.nodes prev = some n := by
  rw [lastFUNodeLoop_eq]
  unfold lastFUCategoryNode at h
  rw [h]; rfl

theorem lastFUCategoryNode_inst (P : ParExeInst) (n : ParExeNode)
    (h : lastFUCategoryNode P = some n) : n.inst = P := by
  unfold lastFUCategoryNode at h
  cases hl : (P.nodes.filter (fun r => r.category = pipeline_stage_category_t.FU)).getLast? with
  | none => rw [hl] at h; cases h
  | some r =>
    rw [hl] at h
    simp only [Option.map_some', Option.some.injEq] at h
    rw [← h]; rfl

theorem lastFUCategoryNode_isSome (P : ParExeInst)
    (h : ∃ r ∈ P.nodes, r.category = pipeline_stage_category_t.FU) :
    ∃ n, lastFUCategoryNode P = some n := by
  obtain ⟨r, hr, hc⟩ := h
  unfold lastFUCategoryNode
  have hne : P.nodes.filter (fun r => r.category = pipeline_stage_category_t.FU) ≠ [] := by
    intro hnil
    have : r ∈ P.nodes.filter (fun r => r.category = pipeline_stage_category_t.FU) :=
      List.mem_filter.mpr ⟨hr, by simpa using hc⟩
    rw [hnil] at this
    cases this
  cases hl : (P.nodes.filter (fun r => r.category = pipeline_stage_category_t.FU)).getLast? with
  | none => exact absurd (List.getLast?_eq_none_iff.mp hl) hne
  | some x => exact ⟨P.node x.id, rfl⟩

theorem memoryOrderNodes_filter (l : List ParExeNode) (prev : Option ParExeNode)
    (es : List ParExeEdge) :
    memoryOrderNodes l prev es =
      memoryOrderNodes (l.filter (fun n => n.inst.inst.isLoad)) prev es := by
  induction l generalizing prev es with
  | nil => rfl
  | cons a rest ih =>
    by_cases ha : a.inst.inst.isLoad = true
    · rw [List.filter_cons, memoryOrderNodes_cons]
      simp only [ha, if_true]
      rw [memoryOrderNodes_cons]
      simp only [ha, if_true]
      exact ih _ _
    · rw [List.filter_cons, memoryOrderNodes_cons]
      simp only [ha, if_false, Bool.false_eq_true]
      exact ih _ _

/-- On a list of load nodes whose instructions all have a functional-unit-category node,
started with the last such node of a load `a` as tracked node, the loop adds the edges of
the consecutive pairs of `a` followed by the list. -/
theorem memoryOrderNodes_loads (L : List ParExeNode) (a n : ParExeNode)
    (hn : lastFUCategoryNode a.inst = some n)
    (hL : ∀ x ∈ L, x.inst.inst.isLoad = true ∧ ∃ m, lastFUCategoryNode x.inst = some m) :
    memoryOrderNodes L (some n) [] = ((a :: L).zip L).flatMap memoryOrderPairEdge := by
  induction L generalizing a n with
  | nil => simp [memoryOrderNodes]
  | cons b rest ih =>
    obtain ⟨hb, m, hm⟩ := hL b (List.mem_cons_self _ _)
    have hrest : ∀ x ∈ rest, x.inst.inst.isLoad = true ∧
        ∃ m, lastFUCategoryNode x.inst = some m :=
      fun x hx => hL x (List.mem_cons_of_mem _ hx)
    rw [memoryOrderNodes_cons]
    simp only [hb, if_true]
    rw [lastFUNodeLoop_of_lastFUCategoryNode b.inst m hm, memoryOrderNodes_append,
      ih b m hm hrest, List.zip_cons_cons, List.flatMap_cons]
    congr 1
    have hni : n.inst = a.inst := lastFUCategoryNode_inst a.inst n hn
    by_cases hne : a.inst.inst = b.inst.inst
    · simp [memoryOrderPairEdge, hne, hni]
    · simp [memoryOrderPairEdge, hne, hni, hn, memoryOrderEdge]

theorem memoryOrderNodes_expected (l : List ParExeNode)
    (hwf : ∀ a ∈ l, ∃ r ∈ a.inst.nodes, r.id = a.id ∧ r.category = pipeline_stage_category_t.FU) :
    memoryOrderNodes l none [] = memoryOrderExpected l := by
  have hL : ∀ x ∈ l.filter (fun n => n.inst.inst.isLoad),
      x.inst.inst.isLoad = true ∧ ∃ m, lastFUCategoryNode x.inst = some m := by
    intro x hx
    obtain ⟨hxl, hload⟩ := List.mem_filter.mp hx
    obtain ⟨r, hr, _, hc⟩ := hwf x hxl
    exact ⟨hload, lastFUCategoryNode_isSome x.inst ⟨r, hr, hc⟩⟩
  rw [memoryOrderNodes_filter]
  unfold memoryOrderExpected consecutiveLoadPairs
  cases hf : l.filter (fun n => n.inst.inst.isLoad) with
  | nil => simp [memoryOrderNodes]
  | cons a rest =>
    rw [hf] at hL
    obtain ⟨ha, n, hn⟩ := hL a (List.mem_cons_self _ _)
    rw [memoryOrderNodes_cons]
    simp only [ha, if_true, List.tail_cons]
    rw [lastFUNodeLoop_of_lastFUCategoryNode a.inst n hn]
    exact memoryOrderNodes_loads rest a n hn (fun x hx => hL x (List.mem_cons_of_mem _ hx))

theorem memoryOrderFus_expected (fus : List ParExePipeline) (es : List ParExeEdge)
    (hwf : ∀ fu ∈ fus, ∀ a ∈ fu.firstStage.nodes,
      ∃ r ∈ a.inst.nodes, r.id = a.id ∧ r.category = pipeline_stage_category_t.FU) :
    memoryOrderFus fus es =
      es ++ fus.flatMap (fun fu => memoryOrderExpected fu.firstStage.nodes) := by
  induction fus generalizing es with
  | nil => simp [memoryOrderFus]
  | cons fu rest ih =>
    unfold memoryOrderFus
    rw [ih _ (fun f hf => hwf f (List.mem_cons_of_mem _ hf)), memoryOrderNodes_append,
      memoryOrderNodes_expected _ (hwf fu (List.mem_cons_self _ _))]
    simp

theorem memoryOrderPairEdge_target (ab : ParExeNode × ParExeNode) (e : ParExeEdge)
    (he : e ∈ memoryOrderPairEdge ab) : e.target = ab.2 := by
  unfold memoryOrderPairEdge at he
  split at he
  · split at he
    · rw [List.mem_singleton] at he
      rw [he]
    · cases he
  · cases he

/-- C12: when every node of the first-stage node list of a functional unit is one of the
functional-unit-category nodes of its own instruction, the edge list after
`addEdgesForMemoryOrder` is the host list followed, unit after unit, by exactly one edge
for each pair of consecutive load nodes of the list whose underlying instructions differ,
solid with latency 0, from the last functional-unit-category node of the instruction of
the earlier load to the later load node; a pair of consecutive load nodes of the same
underlying instruction gets no edge; and the target of every added edge is a load node. -/
theorem addEdgesForMemoryOrder_exact (stage : PipelineStage) (es : List ParExeEdge)
    (hwf : ∀ fu ∈ stage.fus, ∀ a ∈ fu.firstStage.nodes,
      ∃ r ∈ a.inst.nodes, r.id = a.id ∧ r.category = pipeline_stage_category_t.FU) :
    addEdgesForMemoryOrder stage es =
      es ++ stage.fus.flatMap (fun fu => memoryOrderExpected fu.firstStage.nodes) ∧
    (∀ fu ∈ stage.fus, ∀ ab ∈ consecutiveLoadPairs fu.firstStage.nodes,
      (ab.1.inst.inst ≠ ab.2.inst.inst →
        ∃ n, lastFUCategoryNode ab.1.inst = some n ∧
          memoryOrderPairEdge ab = [⟨n, ab.2, edge_type_t.SOLID, 0, "memory order"⟩]) ∧
      (ab.1.inst.inst = ab.2.inst.inst → memoryOrderPairEdge ab = [])) ∧
    (∀ e ∈ stage.fus.flatMap (fun fu => memoryOrderExpected fu.firstStage.nodes),
      e.target.inst.inst.isLoad = true) := by
  refine ⟨memoryOrderFus_expected stage.fus es hwf, ?_, ?_⟩
  · intro fu hfu ab hab
    constructor
    · intro hne
      have ha : ab.1 ∈ fu.firstStage.nodes := by
        unfold consecutiveLoadPairs at hab
        exact (List.mem_filter.mp (List.of_mem_zip hab).1).1
      obtain ⟨r, hr, _, hc⟩ := hwf fu hfu ab.1 ha
      obtain ⟨n, hn⟩ := lastFUCategoryNode_isSome ab.1.inst ⟨r, hr, hc⟩
      exact ⟨n, hn, by simp [memoryOrderPairEdge, hne, hn]⟩
    · intro heq
      simp [memoryOrderPairEdge, heq]
  · intro e he
    obtain ⟨fu, _, he⟩ := List.mem_flatMap.mp he
    unfold memoryOrderExpected at he
    obtain ⟨ab, hab, he⟩ := List.mem_flatMap.mp he
    rw [memoryOrderPairEdge_target ab e he]
    unfold consecutiveLoadPairs at hab
    have h2 := List.mem_of_mem_tail (List.of_mem_zip hab).2
    simpa using (List.mem_filter.mp h2).2

/-- C12 at the sequence `LDR; ADD; LDR; LDR` whose last two entries wrap the same
instruction: one edge from the first load to the second, none between the two
occurrences of the load at address 8. -/
theorem addEdgesForMemoryOrder_exact_witness :
    (∀ fu ∈ sampleRepeatedLoad.fus, ∀ a ∈ fu.firstStage.nodes,
      ∃ r ∈ a.inst.nodes, r.id = a.id ∧ r.category = pipeline_stage_category_t.FU) ∧
    sampleRepeatedLoad.fus.flatMap (fun fu => memoryOrderExpected fu.firstStage.nodes) =
      [⟨hostFUNode 0 (ldr 0), hostFUNode 2 (ldr 8), edge_type_t.SOLID, 0, "memory order"⟩] ∧
    addEdgesForMemoryOrder sampleRepeatedLoad [] =
      [] ++ sampleRepeatedLoad.fus.flatMap (fun fu => memoryOrderExpected fu.firstStage.nodes) :=
  ⟨by decide, by decide,
   (addEdgesForMemoryOrder_exact sampleRepeatedLoad [] (by decide)).1⟩

/-! ### Builder: log stream and address set -/

theorem dumpLoop_presence (d : Decoder) (seq : List ParExeInst) (out : FileOutput)
    (s : Option (List Nat)) (r : FileOutput × Option (List Nat))
    (h : dumpLoop d seq out s = some r) : r.2.isSome = s.isSome := by
  induction seq generalizing out s with
  | nil =>
    simp only [dumpLoop, Option.some.injEq] at h
    rw [← h]
  | cons P rest ih =>
    unfold dumpLoop at h
    split at h
    · exact ih _ _ h
    · cases s with
      | none => simp at h
      | some v =>
        simp only at h
        split at h
        · exact ih _ _ h
        · exact (ih _ _ h).trans rfl

theorem dumpUnknowInst_presence (d : Decoder) (seq : List ParExeInst)
    (o : Option FileOutput) (s : Option (List Nat))
    (r : Option FileOutput × Option (List Nat))
    (h : dumpUnknowInst d seq o s = some r) :
    r.1.isSome = o.isSome ∧ r.2.isSome = s.isSome := by
  unfold dumpUnknowInst at h
  cases o with
  | none =>
    simp only [Option.some.injEq] at h
    rw [← h]
    exact ⟨rfl, rfl⟩
  | some out =>
    simp only at h
    split at h
    · cases h
    · rename_i r1 hr1
      simp only [Option.some.injEq] at h
      rw [← h]
      exact ⟨rfl, dumpLoop_presence d seq out s r1 hr1⟩

theorem dumpUnknowInst_returns (d : Decoder) (seq : List ParExeInst)
    (o : Option FileOutput) (s : Option (List Nat)) (h : o.isSome = s.isSome) :
    ∃ r, dumpUnknowInst d seq o s = some r := by
  cases o with
  | none => exact ⟨_, rfl⟩
  | some out =>
    cases s with
    | none => simp at h
    | some v =>
      suffices hl : ∀ (seq : List ParExeInst) (out : FileOutput) (v : List Nat),
          ∃ r, dumpLoop d seq out (some v) = some r by
        obtain ⟨r, hr⟩ := hl seq out v
        exact ⟨(some r.1, r.2), by simp [dumpUnknowInst, hr]⟩
      intro seq
      induction seq with
      | nil => intro out v; exact ⟨_, rfl⟩
      | cons P rest ih =>
        intro out v
        unfold dumpLoop
        split
        · exact ih out v
        · simp only
          split
          · exact ih out v
          · exact ih _ _

theorem scanFus_fields (fus : List ParExePipeline) (g g1 : M4ExeGraph)
    (h : scanFus fus g = Except.ok g1) :
    g1._out = g._out ∧ g1._unknown_inst_address = g._unknown_inst_address := by
  induction fus generalizing g with
  | nil =>
    simp only [scanFus, Except.ok.injEq] at h
    rw [← h]
    exact ⟨rfl, rfl⟩
  | cons fu rest ih =>
    unfold scanFus at h
    split at h
    · (have k := ih _ h; exact k)
    · split at h
      · (have k := ih _ h; exact k)
      · cases h

theorem scanStages_fields (pipeline : List PipelineStage) (g g1 : M4ExeGraph)
    (h : scanStages pipeline g = Except.ok g1) :
    g1._out = g._out ∧ g1._unknown_inst_address = g._unknown_inst_address := by
  induction pipeline generalizing g with
  | nil =>
    simp only [scanStages, Except.ok.injEq] at h
    rw [← h]
    exact ⟨rfl, rfl⟩
  | cons s rest ih =>
    unfold scanStages at h
    split at h
    · (have k := ih _ h; exact k)
    · split at h
      · (have k := ih _ h; exact k)
      · split at h
        · split at h
          · cases h
          · rename_i g2 hscan
            obtain ⟨f1, f2⟩ := scanFus_fields _ _ _ hscan
            obtain ⟨h1, h2⟩ := ih _ h
            exact ⟨h1.trans f1, h2.trans f2⟩
        · split at h
          · (have k := ih _ h; exact k)
          · (have k := ih _ h; exact k)

theorem build_fields (pipeline : List PipelineStage) (g : M4ExeGraph)
    (r : M4ExeGraph × List BuildStep) (h : build pipeline g = Except.ok r) :
    r.1._out = g._out ∧ r.1._unknown_inst_address = g._unknown_inst_address := by
  unfold build at h
  split at h
  · cases h
  · rename_i g1 hs
    split at h
    · cases h
    · simp only [Except.ok.injEq] at h
      rw [← h]
      exact scanStages_fields _ _ _ hs

theorem make_cases (d : Decoder) (pipeline : List PipelineStage)
    (uninitialised : pipeline_stage_t → Option PipelineStage) (seq : List ParExeInst)
    (b : BBTimerSTM32M4F) :
    (∃ msg, make d pipeline uninitialised seq b = Outcome.assertFailed msg) ∨
    (make d pipeline uninitialised seq b = Outcome.nullDereference ∧
      dumpUnknowInst d seq b.log_stream b.unknown_inst_address = none) ∨
    (∃ g r, make d pipeline uninitialised seq b = Outcome.done (g, ⟨r.1, b.write_log, r.2⟩) ∧
      g._out = r.1 ∧ g._unknown_inst_address = r.2 ∧
      dumpUnknowInst d seq b.log_stream b.unknown_inst_address = some r) := by
  unfold make
  simp only
  split
  · exact Or.inl ⟨_, rfl⟩
  · rename_i g1 steps hb
    obtain ⟨f1, f2⟩ := build_fields _ _ _ hb
    simp only [M4ExeGraph.new] at f1 f2
    rw [f1, f2]
    split
    · rename_i hd
      exact Or.inr (Or.inl ⟨rfl, hd⟩)
    · rename_i r hd
      exact Or.inr (Or.inr ⟨_, r, rfl, rfl, rfl, hd⟩)

theorem runCall_invariant (b : BBTimerSTM32M4F) (c : BuilderCall)
    (h : b.log_stream.isSome = b.unknown_inst_address.isSome) :
    (runCall b c).log_stream.isSome = (runCall b c).unknown_inst_address.isSome := by
  cases c with
  | configure p => exact h
  | setup ws =>
    simp only [runCall, setup]
    split
    · exact h
    · split
      · exact h
      · split
        · rfl
        · exact h
  | make d pipeline uninitialised seq =>
    simp only [runCall]
    rcases make_cases d pipeline uninitialised seq b with ⟨msg, hm⟩ | ⟨hm, _⟩ | ⟨g, r, hm, _, _, hd⟩
    · rw [hm]; exact h
    · rw [hm]; exact h
    · rw [hm]
      obtain ⟨p1, p2⟩ := dumpUnknowInst_presence _ _ _ _ _ hd
      simp only
      rw [p1, p2]; exact h

theorem reach_invariant (calls : List BuilderCall) :
    (reach calls).log_stream.isSome = (reach calls).unknown_inst_address.isSome := by
  unfold reach
  suffices hs : ∀ b : BBTimerSTM32M4F, b.log_stream.isSome = b.unknown_inst_address.isSome →
      (calls.foldl runCall b).log_stream.isSome =
        (calls.foldl runCall b).unknown_inst_address.isSome from hs _ rfl
  induction calls with
  | nil => intro b hb; exact hb
  | cons c rest ih => intro b hb; exact ih _ (runCall_invariant b c hb)

/-- C14: evaluation at the failing input. The builder is configured with `WRITE_LOG` false
and set up on a workspace without cache configuration: `setup` returns normally and the
log stream stays null; `make` builds a graph; `clean` of that graph then dereferences the
null log stream, it does not test the pointer before the flush. -/
theorem clean_without_log_stream :
    (setup sampleWorkSpace (configure false BBTimerSTM32M4F.new)).2 = none ∧
    reach [BuilderCall.configure false, BuilderCall.setup sampleWorkSpace] =
      ⟨none, false, none⟩ ∧
    ((make sampleDecoder pipelineM4F (fun _ => none) [hostInst 0 (alu 0), hostInst 1 (alu 16)]
        (reach [BuilderCall.configure false, BuilderCall.setup sampleWorkSpace])).toOption.map
      (fun r => clean r.1 r.2)) = some Outcome.nullDereference := by
  decide

/-- C15: in every builder reached from a new one by calls of `configure`, `setup` and
`make`, the log stream is present exactly when the address set is present; so no `make`
from such a builder dereferences a null address set: when the sink is absent
`dumpUnknowInst` returns at once and changes nothing, and when the sink is present the
address set is present too and the dump returns normally. -/
theorem reach_log_stream_iff_set (calls : List BuilderCall) :
    ((reach calls).log_stream.isSome = true ↔
      (reach calls).unknown_inst_address.isSome = true) ∧
    (∀ (d : Decoder) (pipeline : List PipelineStage)
        (uninitialised : pipeline_stage_t → Option PipelineStage) (seq : List ParExeInst),
      make d pipeline uninitialised seq (reach calls) ≠ Outcome.nullDereference) ∧
    (∀ (d : Decoder) (seq : List ParExeInst), (reach calls).log_stream = none →
      dumpUnknowInst d seq (reach calls).log_stream (reach calls).unknown_inst_address =
        some (none, (reach calls).unknown_inst_address)) ∧
    (∀ (d : Decoder) (seq : List ParExeInst) (out : FileOutput),
      (reach calls).log_stream = some out →
      ∃ v, (reach calls).unknown_inst_address = some v ∧
        ∃ r, dumpUnknowInst d seq (some out) (some v) = some r) := by
  have hinv := reach_invariant calls
  refine ⟨by rw [hinv], ?_, ?_, ?_⟩
  · intro d pipeline uninitialised seq hnull
    rcases make_cases d pipeline uninitialised seq (reach calls) with
      ⟨msg, hm⟩ | ⟨_, hd⟩ | ⟨g, r, hm, _, _, _⟩
    · rw [hm] at hnull; cases hnull
    · obtain ⟨r, hr⟩ := dumpUnknowInst_returns d seq _ _ hinv
      rw [hr] at hd; cases hd
    · rw [hm] at hnull; cases hnull
  · intro d seq hnone
    rw [hnone]
    rfl
  · intro d seq out hout
    rw [hout] at hinv
    cases hv : (reach calls).unknown_inst_address with
    | none => rw [hv] at hinv; cases hinv
    | some v => exact ⟨v, rfl, dumpUnknowInst_returns d seq (some out) (some v) rfl⟩

/-- C15 at a builder configured to log, set up and used for two blocks: both the log stream
and the address set are present, and the second `make` finds the address recorded by the
first. -/
theorem reach_logging_example :
    reach [BuilderCall.configure true, BuilderCall.setup sampleWorkSpace,
      BuilderCall.make sampleDecoder pipelineM4F (fun _ => none) [hostInst 0 (alu 16)],
      BuilderCall.make sampleDecoder pipelineM4F (fun _ => none)
        [hostInst 0 (alu 0), hostInst 1 (alu 16)]] =
      ⟨some ⟨"prog.log", logHeader "prog" ++ [LogLine.unknownInst 16 (alu 16)]⟩, true,
        some [16]⟩ := by
  decide

/-! ### What `build` accepts and binds -/

theorem startsWith_disjoint (name : String) (h : startsWith name "EXEC_M4" = true) :
    startsWith name "EXEC_F" = false := by
  unfold startsWith at *
  have e1 : "EXEC_M4".data = ['E', 'X', 'E', 'C', '_', 'M', '4'] := by decide
  have e2 : "EXEC_F".data = ['E', 'X', 'E', 'C', '_', 'F'] := by decide
  rw [e1] at h
  rw [e2]
  obtain ⟨t, ht⟩ := List.isPrefixOf_iff_prefix.mp h
  rw [← ht]
  simp [List.isPrefixOf]

theorem scanFus_spec (fus : List ParExePipeline) (g : M4ExeGraph)
    (hall : ∀ fu ∈ fus, startsWith fu.firstStage.name "EXEC_F" = true ∨
      startsWith fu.firstStage.name "EXEC_M4" = true) :
    ∃ g1, scanFus fus g = Except.ok g1 ∧ g1.stage = g.stage ∧
      g1.exec_f = ((floatUnits fus).getLast?).or g.exec_f ∧
      g1.exec_m4 = ((integerUnits fus).getLast?).or g.exec_m4 := by
  induction fus generalizing g with
  | nil => exact ⟨g, rfl, rfl, by simp [floatUnits], by simp [integerUnits]⟩
  | cons fu rest ih =>
    have hrest : ∀ f ∈ rest, startsWith f.firstStage.name "EXEC_F" = true ∨
        startsWith f.firstStage.name "EXEC_M4" = true :=
      fun f hf => hall f (List.mem_cons_of_mem _ hf)
    unfold scanFus
    by_cases hf : startsWith fu.firstStage.name "EXEC_F" = true
    · have hm : startsWith fu.firstStage.name "EXEC_M4" = false := by
        cases hm : startsWith fu.firstStage.name "EXEC_M4" with
        | false => rfl
        | true => rw [startsWith_disjoint _ hm] at hf; cases hf
      obtain ⟨g1, h1, h2, h3, h4⟩ := ih ⟨g.stage, some fu, g.exec_m4, g._out,
        g._unknown_inst_address⟩ hrest
      refine ⟨g1, by rw [if_pos hf]; exact h1, h2, ?_, ?_⟩
      · rw [h3]
        simp only [floatUnits, List.filter_cons, hf, if_true, List.getLast?_cons]
        cases (List.filter (fun fu => startsWith fu.firstStage.name "EXEC_F") rest).getLast? <;>
          simp
      · rw [h4]
        simp [integerUnits, List.filter_cons, hm]
    · rcases hall fu (List.mem_cons_self _ _) with h | hm
      · exact absurd h hf
      · obtain ⟨g1, h1, h2, h3, h4⟩ := ih ⟨g.stage, g.exec_f, some fu, g._out,
          g._unknown_inst_address⟩ hrest
        refine ⟨g1, by rw [if_neg hf, if_pos hm]; exact h1, h2, ?_, ?_⟩
        · rw [h3]
          simp [floatUnits, List.filter_cons, hf]
        · rw [h4]
          simp only [integerUnits, List.filter_cons, hm, if_true, List.getLast?_cons]
          cases (List.filter (fun fu => startsWith fu.firstStage.name "EXEC_M4")
            rest).getLast? <;> simp

theorem scanFus_match (fus : List ParExePipeline) (g g1 : M4ExeGraph)
    (h : scanFus fus g = Except.ok g1) :
    ∀ fu ∈ fus, startsWith fu.firstStage.name "EXEC_F" = true ∨
      startsWith fu.firstStage.name "EXEC_M4" = true := by
  induction fus generalizing g with
  | nil => intro fu hfu; cases hfu
  | cons fu rest ih =>
    unfold scanFus at h
    split at h
    · rename_i hf
      intro f hfm
      rcases List.mem_cons.mp hfm with rfl | hfm
      · exact Or.inl hf
      · exact ih _ h f hfm
    · split at h
      · rename_i hm
        intro f hfm
        rcases List.mem_cons.mp hfm with rfl | hfm
        · exact Or.inr hm
        · exact ih _ h f hfm
      · cases h

theorem exeUnits_cons_exe (s : PipelineStage) (rest : List PipelineStage)
    (h : s.name = "EXE") : exeUnits (s :: rest) = s.fus ++ exeUnits rest := by
  simp [exeUnits, List.filter_cons, h]

theorem exeUnits_cons_other (s : PipelineStage) (rest : List PipelineStage)
    (h : s.name ≠ "EXE") : exeUnits (s :: rest) = exeUnits rest := by
  simp [exeUnits, List.filter_cons, h]

theorem scanStages_match (pipeline : List PipelineStage) (g g1 : M4ExeGraph)
    (h : scanStages pipeline g = Except.ok g1) :
    ∀ fu ∈ exeUnits pipeline, startsWith fu.firstStage.name "EXEC_F" = true ∨
      startsWith fu.firstStage.name "EXEC_M4" = true := by
  induction pipeline generalizing g with
  | nil => intro fu hfu; simp [exeUnits] at hfu
  | cons s rest ih =>
    unfold scanStages at h
    split at h
    · rename_i hn
      rw [exeUnits_cons_other s rest (by rw [hn]; decide)]
      exact ih _ h
    · split at h
      · rename_i hn
        rw [exeUnits_cons_other s rest (by rw [hn]; decide)]
        exact ih _ h
      · split at h
        · rename_i hexe
          split at h
          · cases h
          · rename_i g2 hscan
            rw [exeUnits_cons_exe s rest hexe]
            intro fu hfu
            rcases List.mem_append.mp hfu with hfu | hfu
            · exact scanFus_match _ _ _ hscan fu hfu
            · exact ih _ h fu hfu
        · rename_i hexe
          rw [exeUnits_cons_other s rest hexe]
          split at h
          · exact ih _ h
          · exact ih _ h

theorem getLast?_append_or {α : Type} (l1 l2 : List α) (o : Option α) :
    (l2.getLast?).or ((l1.getLast?).or o) = ((l1 ++ l2).getLast?).or o := by
  rw [List.getLast?_append]
  cases l2.getLast? <;> simp

theorem scanStages_spec (pipeline : List PipelineStage) (g : M4ExeGraph)
    (hall : ∀ fu ∈ exeUnits pipeline, startsWith fu.firstStage.name "EXEC_F" = true ∨
      startsWith fu.firstStage.name "EXEC_M4" = true) :
    ∃ g1, scanStages pipeline g = Except.ok g1 ∧
      g1.exec_f = ((floatUnits (exeUnits pipeline)).getLast?).or g.exec_f ∧
      g1.exec_m4 = ((integerUnits (exeUnits pipeline)).getLast?).or g.exec_m4 ∧
      ∀ i, ((g1.stage i).isSome = true ↔
        ((g.stage i).isSome = true ∨ ∃ s ∈ pipeline, s.name = stageName i)) := by
  induction pipeline generalizing g with
  | nil => exact ⟨g, rfl, by simp [exeUnits, floatUnits], by simp [exeUnits, integerUnits],
      fun i => by simp⟩
  | cons s rest ih =>
    have upd : ∀ (st : pipeline_stage_t → Option PipelineStage) (j i : pipeline_stage_t),
        s.name = stageName j →
        (((setStage st j s i).isSome = true ∨ ∃ t ∈ rest, t.name = stageName i) ↔
          ((st i).isSome = true ∨ ∃ t ∈ s :: rest, t.name = stageName i)) := by
      intro st j i hj
      by_cases hij : i = j
      · subst hij
        simp [setStage, hj]
      · have hne : s.name ≠ stageName i := by
          rw [hj]
          revert hij
          cases i <;> cases j <;> decide
        simp [setStage, hij, hne]
    have same : ∀ (A : Prop) (i : pipeline_stage_t), s.name ≠ stageName i →
        ((A ∨ ∃ t ∈ rest, t.name = stageName i) ↔ (A ∨ ∃ t ∈ s :: rest, t.name = stageName i)) := by
      intro A i hne
      simp [hne]
    unfold scanStages
    by_cases h1 : s.name = "Fetch"
    · rw [if_pos h1]
      rw [exeUnits_cons_other s rest (by rw [h1]; decide)] at hall ⊢
      obtain ⟨g1, k1, k2, k3, k4⟩ := ih ⟨setStage g.stage pipeline_stage_t.FE s, g.exec_f,
        g.exec_m4, g._out, g._unknown_inst_address⟩ hall
      exact ⟨g1, k1, k2, k3, fun i => (k4 i).trans (upd g.stage pipeline_stage_t.FE i h1)⟩
    · rw [if_neg h1]
      by_cases h2 : s.name = "Decode"
      · rw [if_pos h2]
        rw [exeUnits_cons_other s rest (by rw [h2]; decide)] at hall ⊢
        obtain ⟨g1, k1, k2, k3, k4⟩ := ih ⟨setStage g.stage pipeline_stage_t.DE s, g.exec_f,
          g.exec_m4, g._out, g._unknown_inst_address⟩ hall
        exact ⟨g1, k1, k2, k3, fun i => (k4 i).trans (upd g.stage pipeline_stage_t.DE i h2)⟩
      · rw [if_neg h2]
        by_cases h3 : s.name = "EXE"
        · rw [if_pos h3]
          rw [exeUnits_cons_exe s rest h3] at hall ⊢
          obtain ⟨g2, f1, f2, f3, f4⟩ := scanFus_spec s.fus
            ⟨setStage g.stage pipeline_stage_t.EXE s, g.exec_f, g.exec_m4, g._out,
              g._unknown_inst_address⟩
            (fun fu hfu => hall fu (List.mem_append_left _ hfu))
          obtain ⟨g1, k1, k2, k3, k4⟩ := ih g2
            (fun fu hfu => hall fu (List.mem_append_right _ hfu))
          refine ⟨g1, by rw [f1]; exact k1, ?_, ?_, fun i => ?_⟩
          · rw [k2, f3]
            simp only [floatUnits, List.filter_append]
            exact getLast?_append_or _ _ _
          · rw [k3, f4]
            simp only [integerUnits, List.filter_append]
            exact getLast?_append_or _ _ _
          · rw [k4 i, f2]
            exact upd g.stage pipeline_stage_t.EXE i h3
        · rw [if_neg h3]
          rw [exeUnits_cons_other s rest h3] at hall ⊢
          by_cases h4 : s.name = "Write"
          · rw [if_pos h4]
            obtain ⟨g1, k1, k2, k3, k4⟩ := ih ⟨setStage g.stage pipeline_stage_t.WR s,
              g.exec_f, g.exec_m4, g._out, g._unknown_inst_address⟩ hall
            exact ⟨g1, k1, k2, k3, fun i => (k4 i).trans (upd g.stage pipeline_stage_t.WR i h4)⟩
          · rw [if_neg h4]
            obtain ⟨g1, k1, k2, k3, k4⟩ := ih g hall
            refine ⟨g1, k1, k2, k3, fun i => (k4 i).trans (same _ i ?_)⟩
            cases i
            · exact h1
            · exact h2
            · exact h3
            · exact h4

theorem checkStages_iff (g : M4ExeGraph) :
    checkStages g = Except.ok () ↔
      (∀ i, (g.stage i).isSome = true) ∧ g.exec_f.isSome = true ∧ g.exec_m4.isSome = true := by
  constructor
  · exact checkStages_ok g
  · rintro ⟨hs, hf, hm⟩
    have h1 := hs pipeline_stage_t.FE
    have h2 := hs pipeline_stage_t.DE
    have h3 := hs pipeline_stage_t.EXE
    have h4 := hs pipeline_stage_t.WR
    rw [Option.isSome_iff_ne_none] at h1 h2 h3 h4 hf hm
    simp [checkStages, h1, h2, h3, h4, hf, hm]

theorem getLast?_isSome_iff_length {α : Type} (l : List α) :
    l.getLast?.isSome = true ↔ 1 ≤ l.length := by
  cases l with
  | nil => simp
  | cons a t => simp [List.getLast?_cons]

/-- C6, amended: `build` on a new graph does not fail exactly when every functional unit
of the stages named `EXE` (all of them taken together, in scan order) has a first stage
name that starts with `EXEC_F` or with `EXEC_M4`, each of the four entries of the stage
table is non-null (its stage is in the pipeline, or the constructor left the entry
non-null), at least one of these units is a float unit and at least one is an integer
unit. The units are not counted beyond that, so a pipeline with none of a kind is
rejected and one with several of a kind is accepted; `exec_f` and `exec_m4` are then
bound to the unit of their kind that is scanned last. -/
theorem build_accepts_iff (pipeline : List PipelineStage)
    (uninitialised : pipeline_stage_t → Option PipelineStage) (out : Option FileOutput)
    (set : Option (List Nat)) :
    ((build pipeline (M4ExeGraph.new uninitialised out set)).isOk = true ↔
      ((∀ fu ∈ exeUnits pipeline, startsWith fu.firstStage.name "EXEC_F" = true ∨
          startsWith fu.firstStage.name "EXEC_M4" = true) ∧
        (∀ i, (uninitialised i).isSome = true ∨ ∃ s ∈ pipeline, s.name = stageName i) ∧
        1 ≤ (floatUnits (exeUnits pipeline)).length ∧
        1 ≤ (integerUnits (exeUnits pipeline)).length)) ∧
    (∀ r, build pipeline (M4ExeGraph.new uninitialised out set) = Except.ok r →
      r.1.exec_f = (floatUnits (exeUnits pipeline)).getLast? ∧
      r.1.exec_m4 = (integerUnits (exeUnits pipeline)).getLast?) := by
  have key : ∀ g1, scanStages pipeline (M4ExeGraph.new uninitialised out set) = Except.ok g1 →
      (∀ fu ∈ exeUnits pipeline, startsWith fu.firstStage.name "EXEC_F" = true ∨
          startsWith fu.firstStage.name "EXEC_M4" = true) ∧
      g1.exec_f = (floatUnits (exeUnits pipeline)).getLast? ∧
      g1.exec_m4 = (integerUnits (exeUnits pipeline)).getLast? ∧
      ∀ i, ((g1.stage i).isSome = true ↔
        ((uninitialised i).isSome = true ∨ ∃ s ∈ pipeline, s.name = stageName i)) := by
    intro g1 hs
    have hall := scanStages_match _ _ _ hs
    obtain ⟨g2, k1, k2, k3, k4⟩ := scanStages_spec pipeline
      (M4ExeGraph.new uninitialised out set) hall
    rw [hs] at k1
    have hg : g1 = g2 := by injection k1
    subst hg
    refine ⟨hall, ?_, ?_, k4⟩
    · rw [k2]; simp [M4ExeGraph.new]
    · rw [k3]; simp [M4ExeGraph.new]
  refine ⟨⟨fun hok => ?_, fun hcond => ?_⟩, fun r hr => ?_⟩
  · obtain ⟨g1, hs, hc⟩ := build_ok _ _ hok
    obtain ⟨hall, e1, e2, e3⟩ := key g1 hs
    obtain ⟨c1, c2, c3⟩ := (checkStages_iff g1).mp hc
    refine ⟨hall, fun i => (e3 i).mp (c1 i), ?_, ?_⟩
    · rw [e1] at c2; exact (getLast?_isSome_iff_length _).mp c2
    · rw [e2] at c3; exact (getLast?_isSome_iff_length _).mp c3
  · obtain ⟨hall, hst, hf, hm⟩ := hcond
    obtain ⟨g1, hs, _⟩ := scanStages_spec pipeline (M4ExeGraph.new uninitialised out set) hall
    obtain ⟨_, e1, e2, e3⟩ := key g1 hs
    have hc : checkStages g1 = Except.ok () :=
      (checkStages_iff g1).mpr ⟨fun i => (e3 i).mpr (hst i),
        by rw [e1]; exact (getLast?_isSome_iff_length _).mpr hf,
        by rw [e2]; exact (getLast?_isSome_iff_length _).mpr hm⟩
    simp [build, hs, hc, Except.isOk, Except.toBool]
  · have hok : (build pipeline (M4ExeGraph.new uninitialised out set)).isOk = true := by
      rw [hr]; rfl
    obtain ⟨g1, hs, hc⟩ := build_ok _ _ hok
    obtain ⟨_, e1, e2, _⟩ := key g1 hs
    have hr1 : r.1 = g1 := by
      simp only [build, hs, hc] at hr
      injection hr with hr
      rw [← hr]
    rw [hr1]
    exact ⟨e1, e2⟩

/-- C6 amended, at a pipeline with one float unit and two integer units under `EXE`: the
conditions hold, `build` does not fail, and `exec_m4` is the integer unit scanned last. -/
theorem build_accepts_iff_witness :
    ((∀ fu ∈ exeUnits pipelineTwoInteger, startsWith fu.firstStage.name "EXEC_F" = true ∨
        startsWith fu.firstStage.name "EXEC_M4" = true) ∧
      (∀ i, ((fun _ => none : pipeline_stage_t → Option PipelineStage) i).isSome = true ∨
        ∃ s ∈ pipelineTwoInteger, s.name = stageName i) ∧
      1 ≤ (floatUnits (exeUnits pipelineTwoInteger)).length ∧
      1 ≤ (integerUnits (exeUnits pipelineTwoInteger)).length) ∧
    (integerUnits (exeUnits pipelineTwoInteger)).length = 2 ∧
    (build pipelineTwoInteger (M4ExeGraph.new (fun _ => none) none none)).isOk = true ∧
    ((build pipelineTwoInteger (M4ExeGraph.new (fun _ => none) none none)).toOption.map
      (fun r => (r.1.exec_f, r.1.exec_m4))) =
      some (some (sampleUnit "EXEC_F"), some (sampleUnit "EXEC_M4_B")) :=
  have hcond : (∀ fu ∈ exeUnits pipelineTwoInteger,
        startsWith fu.firstStage.name "EXEC_F" = true ∨
        startsWith fu.firstStage.name "EXEC_M4" = true) ∧
      (∀ i, ((fun _ => none : pipeline_stage_t → Option PipelineStage) i).isSome = true ∨
        ∃ s ∈ pipelineTwoInteger, s.name = stageName i) ∧
      1 ≤ (floatUnits (exeUnits pipelineTwoInteger)).length ∧
      1 ≤ (integerUnits (exeUnits pipelineTwoInteger)).length :=
    ⟨by decide, fun i => by cases i <;> decide, by decide, by decide⟩
  ⟨hcond, by decide,
   (build_accepts_iff pipelineTwoInteger (fun _ => none) none none).1.mpr hcond, by decide⟩

/-- A pipeline whose float unit and integer unit stand under two different stages named
`EXE` is accepted: the units of all stages named `EXE` are scanned. -/
theorem build_accepts_split_exe :
    (pipelineSplitExe.map (fun s => (s.name, s.fus.length))) =
      [("Fetch", 0), ("Decode", 0), ("EXE", 1), ("EXE", 1), ("Write", 0)] ∧
    (build pipelineSplitExe (M4ExeGraph.new (fun _ => none) none none)).isOk = true ∧
    ((build pipelineSplitExe (M4ExeGraph.new (fun _ => none) none none)).toOption.map
      (fun r => (r.1.exec_f, r.1.exec_m4))) =
      some (some (sampleUnit "EXEC_F"), some (sampleUnit "EXEC_M4")) := by
  decide

end otawa.stm32
